import Mathlib

/-!
Shallow embedding of the limit order book core found in
`src/core/include/order.h` / `src/core/include/order_book.h` (types in
`order_book/include/types.h`), together with proofs about its behaviour.

Modelling conventions:
* `Price = std::int32_t` is embedded as `Int` (prices are only stored and
  compared, never subject to arithmetic, so no wrap point exists).
* `Quantity = std::uint32_t` is embedded as `Nat`; the two places where the
  source can wrap a 32-bit accumulator (`CanFillCompletely` and the
  `std::accumulate` in `GetOrderInfos`) take an explicit `% 2^32`.
  `Order::Fill` is always invoked with `min(bidRemaining, askRemaining)`,
  which never exceeds the remaining quantity, so its subtraction is exact.
* `OrderId = std::uint64_t` is embedded as `Nat` (no arithmetic on ids).
* `std::map<Price, OrderPointers, greater>` / `<less>` are embedded as
  association lists sorted by key (descending for bids, ascending for asks);
  `std::unordered_map<OrderId, OrderEntry>` is an association list in
  insertion order (iteration order of the hash map is unspecified in C++;
  every fold over it performed by the source is order-independent).
* The `shared_ptr<Order>` shared between ladder queue and index is embedded
  by making the ladder queue hold the order value; the index entry keeps the
  immutable fields (`side`, `price`, `orderType`) that the source reads
  through the pointer, and the stored list iterator is embedded as
  removal-by-id at the recorded price level.
* Exceptions: the only exception reachable from inside the book is the
  `std::invalid_argument` thrown by `Order`'s constructor when
  `OrderModify::ToOrderPointer` builds the replacement order during
  `OrderBook::MatchOrder`; it is embedded with `Except`.  `Order::Fill`'s
  overfill exception is unreachable because the matcher passes
  `min(bid->rem, ask->rem)`.
* `AddOrderInternal` / `CancelOrderInternal` repeat exactly the checks and
  mutations of `AddOrder` / `CancelOrder` (the public versions only add
  locking and performance tracking, which have no state effect), so each
  pair is embedded as a single function.
* Both matching loops are written with an explicit fuel argument so that all
  definitions are structurally recursive and kernel-evaluable; the fuel
  passed by `matchOrders` is proven sufficient (`matchLoop_exit`).
-/

namespace OB

inductive OrderType where
  | GoodTillCancel
  | ImmediateOrCancel
  | FillOrKill
deriving DecidableEq, Repr

inductive Side where
  | Buy
  | Sell
deriving DecidableEq, Repr

abbrev Price := Int
abbrev Quantity := Nat
abbrev OrderId := Nat

/-- `2^32`: the modulus of the source's `std::uint32_t` quantity type. -/
def qmod : Nat := 4294967296

structure Order where
  orderType : OrderType
  orderId : OrderId
  side : Side
  price : Price
  initialQuantity : Quantity
  remainingQuantity : Quantity
deriving DecidableEq, Repr

/-- `Order::Order`: throws `std::invalid_argument` when `quantity == 0` or
`orderId == 0`; otherwise `remainingQuantity_` starts equal to `quantity`. -/
def mkOrder (t : OrderType) (id : OrderId) (s : Side) (p : Price) (q : Quantity) :
    Option Order :=
  if q = 0 then none
  else if id = 0 then none
  else some ⟨t, id, s, p, q, q⟩

/-- `Order::IsFilled`. -/
def Order.isFilled (o : Order) : Bool := o.remainingQuantity = 0

/-- `Order::Fill` on the matcher's call sites, where the argument is
`min(bid->GetRemainingQuantity(), ask->GetRemainingQuantity())` and hence
never exceeds the remaining quantity (the throwing branch is dead). -/
def Order.fill (o : Order) (q : Quantity) : Order :=
  { o with remainingQuantity := o.remainingQuantity - q }

structure OrderModify where
  orderId : OrderId
  side : Side
  price : Price
  quantity : Quantity
deriving DecidableEq, Repr

/-- `OrderModify::ToOrderPointer`: constructs a fresh `Order` with the
preserved type (construction can throw, hence `Option`). -/
def OrderModify.toOrder (m : OrderModify) (t : OrderType) : Option Order :=
  mkOrder t m.orderId m.side m.price m.quantity

structure TradeInfo where
  orderId : OrderId
  price : Price
  quantity : Quantity
deriving DecidableEq, Repr

structure Trade where
  bidTrade : TradeInfo
  askTrade : TradeInfo
deriving DecidableEq, Repr

/-- `OrderBook::OrderEntry`, restricted to the immutable `Order` fields the
book ever reads through the stored pointer. -/
structure OrderEntry where
  side : Side
  price : Price
  orderType : OrderType
deriving DecidableEq, Repr

/-- A price ladder: `std::map<Price, OrderPointers>` as a sorted
association list (bids descending, asks ascending). -/
abbrev Ladder := List (Price × List Order)

structure Book where
  bids : Ladder
  asks : Ladder
  orders : List (OrderId × OrderEntry)
deriving DecidableEq, Repr

def emptyBook : Book := ⟨[], [], []⟩

/-- `orders_.find(id)` (at most one entry per key in the real hash map). -/
def lookupIndex : List (OrderId × OrderEntry) → OrderId → Option OrderEntry
  | [], _ => none
  | (i, e) :: rest, id => if i = id then some e else lookupIndex rest id

/-- `orders_.erase(id)`. -/
def eraseIndex (idx : List (OrderId × OrderEntry)) (id : OrderId) :
    List (OrderId × OrderEntry) :=
  idx.filter (fun p => p.1 ≠ id)

/-- `bids_[price].push_back(order)` on the descending-ordered bid map:
navigate to the level (creating it if absent) and append at the tail. -/
def insertBid (p : Price) (o : Order) : Ladder → Ladder
  | [] => [(p, [o])]
  | (q, l) :: rest =>
    if p > q then (p, [o]) :: (q, l) :: rest
    else if p = q then (q, l ++ [o]) :: rest
    else (q, l) :: insertBid p o rest

/-- `asks_[price].push_back(order)` on the ascending-ordered ask map. -/
def insertAsk (p : Price) (o : Order) : Ladder → Ladder
  | [] => [(p, [o])]
  | (q, l) :: rest =>
    if p < q then (p, [o]) :: (q, l) :: rest
    else if p = q then (q, l ++ [o]) :: rest
    else (q, l) :: insertAsk p o rest

/-- `orders.erase(iterator)`: the stored iterator denotes the (unique) node
holding the order with this id, i.e. its first occurrence. -/
def removeFirstById : List Order → OrderId → List Order
  | [], _ => []
  | o :: rest, id => if o.orderId = id then rest else o :: removeFirstById rest id

/-- `ladder.find(price)`; erase the order's node from the queue there; erase
the price level if the queue became empty (`CancelOrderInternal`). -/
def removeFromLadder (ladder : Ladder) (p : Price) (id : OrderId) : Ladder :=
  match ladder with
  | [] => []
  | (q, l) :: rest =>
    if q = p then
      let l2 := removeFirstById l id
      if l2.isEmpty then rest else (q, l2) :: rest
    else (q, l) :: removeFromLadder rest p id

def ladderOrders (ladder : Ladder) : List Order :=
  (ladder.map Prod.snd).flatten

def allOrders (b : Book) : List Order := ladderOrders b.bids ++ ladderOrders b.asks

def entryOf (o : Order) : OrderId × OrderEntry :=
  (o.orderId, ⟨o.side, o.price, o.orderType⟩)

def ladderKeys (ladder : Ladder) : List Price := ladder.map Prod.fst

/-- `OrderBook::CanMatch`: inspect the first (best) level of the opposite
ladder. -/
def canMatch (b : Book) (s : Side) (p : Price) : Bool :=
  match s with
  | Side.Buy =>
    match b.asks with
    | [] => false
    | (bestAsk, _) :: _ => decide (bestAsk ≤ p)
  | Side.Sell =>
    match b.bids with
    | [] => false
    | (bestBid, _) :: _ => decide (p ≤ bestBid)

/-- Inner accumulation of `CanFillCompletely` over one level's queue:
`availableQuantity += order->GetRemainingQuantity()` on `std::uint32_t`
(wrapping), with the early `return true` once `availableQuantity >= quantity`.
`none` encodes the early return, `some avail` continuation. -/
def accumQueue : List Order → Quantity → Quantity → Option Quantity
  | [], _, avail => some avail
  | o :: rest, qty, avail =>
    let avail2 := (avail + o.remainingQuantity) % qmod
    if qty ≤ avail2 then none else accumQueue rest qty avail2

/-- Level walk of `CanFillCompletely`: `cont p` is the crossability test of
the level key (`!(askPrice > price)` resp. `!(bidPrice < price)`); the walk
breaks with `false` at the first non-crossable level. -/
def canFillLoop (cont : Price → Bool) : Ladder → Quantity → Quantity → Bool
  | [], _, _ => false
  | (p, l) :: rest, qty, avail =>
    if cont p then
      match accumQueue l qty avail with
      | none => true
      | some avail2 => canFillLoop cont rest qty avail2
    else false

/-- `OrderBook::CanFillCompletely`. -/
def canFillCompletely (b : Book) (s : Side) (p : Price) (qty : Quantity) : Bool :=
  match s with
  | Side.Buy => canFillLoop (fun ap => decide (ap ≤ p)) b.asks qty 0
  | Side.Sell => canFillLoop (fun bp => decide (p ≤ bp)) b.bids qty 0

/-- Inner `while (!bids.empty() && !asks.empty())` loop of
`OrderBook::MatchOrders`, acting on the two best-level queues.  Returns
(trades, remaining bid queue, remaining ask queue, orders popped from the
bid queue, orders popped from the ask queue); the popped orders' ids are
exactly the `orders_.erase` calls the source performs inside the loop.
Fuel is structural; `bq.length + aq.length` is proven sufficient. -/
def matchLevel : Nat → List Order → List Order →
    List Trade × List Order × List Order × List Order × List Order
  | 0, bq, aq => ([], bq, aq, [], [])
  | _ + 1, [], aq => ([], [], aq, [], [])
  | _ + 1, b :: bq, [] => ([], b :: bq, [], [], [])
  | fuel + 1, b :: bq, a :: aq =>
    let q := min b.remainingQuantity a.remainingQuantity
    let t : Trade := ⟨⟨b.orderId, a.price, q⟩, ⟨a.orderId, a.price, q⟩⟩
    if b.remainingQuantity ≤ a.remainingQuantity then
      if a.remainingQuantity ≤ b.remainingQuantity then
        -- both heads filled: pop both
        let r := matchLevel fuel bq aq
        (t :: r.1, r.2.1, r.2.2.1, (b.fill q) :: r.2.2.2.1, (a.fill q) :: r.2.2.2.2)
      else
        -- bid head filled, ask head partially filled and stays at the front
        let r := matchLevel fuel bq (a.fill q :: aq)
        (t :: r.1, r.2.1, r.2.2.1, (b.fill q) :: r.2.2.2.1, r.2.2.2.2)
    else
      -- ask head filled, bid head partially filled and stays at the front
      let r := matchLevel fuel (b.fill q :: bq) aq
      (t :: r.1, r.2.1, r.2.2.1, r.2.2.2.1, (a.fill q) :: r.2.2.2.2)

/-- Erase the popped orders' ids from the index (the source interleaves the
`orders_.erase` calls with the queue pops; the resulting map is the same). -/
def eraseAll (idx : List (OrderId × OrderEntry)) (removed : List Order) :
    List (OrderId × OrderEntry) :=
  removed.foldl (fun i o => eraseIndex i o.orderId) idx

/-- Outer `while (true)` loop of `OrderBook::MatchOrders`: stops when a side
is empty or `bidPrice < askPrice`, otherwise crosses the two best levels and
erases them when their queues empty.  Fuel is structural;
`b.bids.length + b.asks.length + 1` is proven sufficient. -/
def matchLoop : Nat → Book → List Trade × Book
  | 0, b => ([], b)
  | fuel + 1, b =>
    match b.bids, b.asks with
    | [], _ => ([], b)
    | _ :: _, [] => ([], b)
    | (bp, bq) :: brest, (ap, aq) :: arest =>
      if bp < ap then ([], b)
      else
        let r := matchLevel (bq.length + aq.length) bq aq
        let bids2 := if r.2.1.isEmpty then brest else (bp, r.2.1) :: brest
        let asks2 := if r.2.2.1.isEmpty then arest else (ap, r.2.2.1) :: arest
        let idx2 := eraseAll (eraseAll b.orders r.2.2.2.1) r.2.2.2.2
        let rec2 := matchLoop fuel ⟨bids2, asks2, idx2⟩
        (r.1 ++ rec2.1, rec2.2)

/-- Post-match sweep id collection: every indexed order whose type is
`ImmediateOrCancel` or `FillOrKill`. -/
def sweepIds (idx : List (OrderId × OrderEntry)) : List OrderId :=
  (idx.filter (fun p =>
    p.2.orderType = OrderType.ImmediateOrCancel ∨
    p.2.orderType = OrderType.FillOrKill)).map Prod.fst

/-- `OrderBook::CancelOrderInternal` (and `CancelOrder`, which differs only
by locking/tracking): locate the entry, erase the order's node from the
queue at the recorded price on the recorded side, prune the level if empty,
erase the id from the index.  Unknown id: no-op. -/
def cancelOrderInternal (b : Book) (id : OrderId) : Book :=
  match lookupIndex b.orders id with
  | none => b
  | some e =>
    match e.side with
    | Side.Sell =>
      { bids := b.bids, asks := removeFromLadder b.asks e.price id,
        orders := eraseIndex b.orders id }
    | Side.Buy =>
      { bids := removeFromLadder b.bids e.price id, asks := b.asks,
        orders := eraseIndex b.orders id }

/-- `OrderBook::MatchOrders`: the matching loop to fixpoint followed by the
sweep cancelling residual `ImmediateOrCancel`/`FillOrKill` orders. -/
def matchOrders (b : Book) : List Trade × Book :=
  let r := matchLoop (b.bids.length + b.asks.length + 1) b
  (r.1, (sweepIds r.2.orders).foldl cancelOrderInternal r.2)

/-- Placement step of `AddOrder`: append to the tail of the queue at the
order's price on its side (creating the level), then record the id and the
entry in the index. -/
def placeOrder (b : Book) (o : Order) : Book :=
  match o.side with
  | Side.Buy =>
    { bids := insertBid o.price o b.bids, asks := b.asks,
      orders := b.orders ++ [entryOf o] }
  | Side.Sell =>
    { bids := b.bids, asks := insertAsk o.price o b.asks,
      orders := b.orders ++ [entryOf o] }

/-- `OrderBook::AddOrder` (and `AddOrderInternal`, which performs the same
checks and mutations): the admission checks in source order, then placement
and matching.  A null `OrderPointer` is `none`. -/
def addOrder (b : Book) (op : Option Order) : List Trade × Book :=
  match op with
  | none => ([], b)
  | some o =>
    if o.remainingQuantity = 0 then ([], b)
    else if o.orderId = 0 then ([], b)
    else if (lookupIndex b.orders o.orderId).isSome then ([], b)
    else if o.orderType = OrderType.ImmediateOrCancel ∧
        ¬ canMatch b o.side o.price then ([], b)
    else if o.orderType = OrderType.FillOrKill ∧
        ¬ canFillCompletely b o.side o.price o.remainingQuantity then ([], b)
    else matchOrders (placeOrder b o)

inductive BookError where
  | constructionInvalid
deriving DecidableEq, Repr

/-- `OrderBook::MatchOrder(OrderModify)`: unknown id returns empty;
otherwise cancel then re-add a fresh order via `ToOrderPointer` with the
preserved type.  The fresh order's construction throws
`std::invalid_argument` when the amendment quantity is zero (or the id is
zero) — at that point the cancel has already mutated the book, so the
error is paired with the cancelled state. -/
def matchOrder (b : Book) (m : OrderModify) :
    Except BookError (List Trade) × Book :=
  match lookupIndex b.orders m.orderId with
  | none => (Except.ok [], b)
  | some e =>
    let b1 := cancelOrderInternal b m.orderId
    match m.toOrder e.orderType with
    | none => (Except.error BookError.constructionInvalid, b1)
    | some o =>
      let r := addOrder b1 (some o)
      (Except.ok r.1, r.2)

/-- `OrderBook::Size`. -/
def bookSize (b : Book) : Nat := b.orders.length

structure LevelInfo where
  price : Price
  quantity : Quantity
deriving DecidableEq, Repr

/-- The `std::accumulate` of `GetOrderInfos` with initial value
`(Quantity)0`: a `std::uint32_t` running sum, wrapping at `2^32`. -/
def levelQuantity (orders : List Order) : Quantity :=
  orders.foldl (fun s o => (s + o.remainingQuantity) % qmod) 0

/-- `OrderBook::GetOrderInfos`: per-level `(price, accumulated quantity)`
over the bid ladder (descending) and the ask ladder (ascending). -/
def getOrderInfos (b : Book) : List LevelInfo × List LevelInfo :=
  (b.bids.map (fun pl => ⟨pl.1, levelQuantity pl.2⟩),
   b.asks.map (fun pl => ⟨pl.1, levelQuantity pl.2⟩))

/-- The queue at a given price level of a ladder (empty when the level is
absent); an observer used to state placement properties. -/
def queueAt : Ladder → Price → List Order
  | [], _ => []
  | (q, l) :: rest, p => if q = p then l else queueAt rest p

/-- The ladder an order of the given side rests in. -/
def ladderOf (b : Book) (s : Side) : Ladder :=
  match s with
  | Side.Buy => b.bids
  | Side.Sell => b.asks

/-- Modelled from the spec: "the cumulative remaining quantity of
opposite-side orders at prices crossable with `price`, summed in ladder
order" — the exact mathematical sum, with no 32-bit wrap.  Used to compare
the source's `CanFillCompletely` against the spec's description. -/
def crossableQuantity (b : Book) (s : Side) (p : Price) : Quantity :=
  match s with
  | Side.Buy =>
    ((ladderOrders (b.asks.filter (fun pl => decide (pl.1 ≤ p)))).map
      Order.remainingQuantity).sum
  | Side.Sell =>
    ((ladderOrders (b.bids.filter (fun pl => decide (p ≤ pl.1)))).map
      Order.remainingQuantity).sum

/-- Modelled from the spec: "cancel the id, and add a new Order built from
the amendment carrying the preserved type" — the literal composition of the
cancel operation and the add operation on a freshly constructed order
(whose construction can fail).  Used to compare `MatchOrder` against the
spec's cancel-then-replace description. -/
def cancelThenReplace (b : Book) (m : OrderModify) (t : OrderType) :
    Except BookError (List Trade) × Book :=
  let b1 := cancelOrderInternal b m.orderId
  match OrderModify.toOrder m t with
  | none => (Except.error BookError.constructionInvalid, b1)
  | some o => (Except.ok (addOrder b1 (some o)).1, (addOrder b1 (some o)).2)

/-- "The book is never crossed at rest": whenever both ladders are
non-empty, the first (best) bid key is below the first (best) ask key. -/
def headsLT (b : Book) : Prop :=
  ∀ bl ∈ b.bids.head?, ∀ al ∈ b.asks.head?, bl.1 < al.1

/-- Structural well-formedness of a book (everything except the
non-crossed property, which an order insertion temporarily breaks). -/
structure WFS (b : Book) : Prop where
  bidsSorted : (ladderKeys b.bids).Pairwise (· > ·)
  asksSorted : (ladderKeys b.asks).Pairwise (· < ·)
  bidsNE : ∀ pl ∈ b.bids, pl.2 ≠ []
  asksNE : ∀ pl ∈ b.asks, pl.2 ≠ []
  bidsLevel : ∀ pl ∈ b.bids, ∀ o ∈ pl.2, o.side = Side.Buy ∧ o.price = pl.1
  asksLevel : ∀ pl ∈ b.asks, ∀ o ∈ pl.2, o.side = Side.Sell ∧ o.price = pl.1
  indexPerm : b.orders.Perm ((allOrders b).map entryOf)
  idsNodup : (b.orders.map Prod.fst).Nodup
  posRem : ∀ o ∈ allOrders b, 0 < o.remainingQuantity
  idsNZ : ∀ p ∈ b.orders, p.1 ≠ 0

/-- Full well-formedness: structure plus the non-crossed top of book. -/
def WF (b : Book) : Prop := WFS b ∧ headsLT b

/-- A resting book used in the overflow counterexamples: two good-till-cancel
sells of 3000000000 each at price 100 (both admitted, no crossing). -/
def bigBook : Book :=
  (addOrder (addOrder emptyBook
    (mkOrder OrderType.GoodTillCancel 1 Side.Sell 100 3000000000)).2
    (mkOrder OrderType.GoodTillCancel 2 Side.Sell 100 3000000000)).2

/-- A book holding a single resting buy, used in the modify counterexample. -/
def oneBuyBook : Book :=
  (addOrder emptyBook (mkOrder OrderType.GoodTillCancel 1 Side.Buy 100 5)).2

/-- The books reachable from the empty book through the public mutating
surface: `AddOrder`, `CancelOrder`, `MatchOrder` (modify, including the
state left behind when its replacement construction throws) and `clear`. -/
inductive Reachable : Book → Prop where
  | empty : Reachable emptyBook
  | add (op : Option Order) {b : Book} :
      Reachable b → Reachable (addOrder b op).2
  | cancel (id : OrderId) {b : Book} :
      Reachable b → Reachable (cancelOrderInternal b id)
  | modify (m : OrderModify) {b : Book} :
      Reachable b → Reachable (matchOrder b m).2
  | clearBook {b : Book} : Reachable b → Reachable emptyBook

/-! ### Index (unordered_map) lemmas -/

theorem lookupIndex_eq_none {idx : List (OrderId × OrderEntry)} {id : OrderId} :
    lookupIndex idx id = none ↔ id ∉ idx.map Prod.fst := by
  induction idx with
  | nil => simp [lookupIndex]
  | cons p rest ih =>
    obtain ⟨i, e⟩ := p
    by_cases h : i = id
    · subst h; simp [lookupIndex]
    · simp [lookupIndex, h, ih, Ne.symm h]

theorem lookupIndex_mem {idx : List (OrderId × OrderEntry)} {id : OrderId}
    {e : OrderEntry} (h : lookupIndex idx id = some e) : (id, e) ∈ idx := by
  induction idx with
  | nil => simp [lookupIndex] at h
  | cons p rest ih =>
    obtain ⟨i, e'⟩ := p
    by_cases hi : i = id
    · subst hi
      have hv : lookupIndex ((i, e') :: rest) i = some e' := by simp [lookupIndex]
      rw [hv] at h
      obtain rfl := Option.some.inj h
      exact List.mem_cons_self _ _
    · simp only [lookupIndex, if_neg hi] at h
      exact List.mem_cons_of_mem _ (ih h)

theorem lookupIndex_isSome {idx : List (OrderId × OrderEntry)} {id : OrderId} :
    (lookupIndex idx id).isSome = true ↔ id ∈ idx.map Prod.fst := by
  rcases h : lookupIndex idx id with _ | e
  · simp [lookupIndex_eq_none.mp h]
  · simp only [Option.isSome_some, true_iff]
    exact List.mem_map.mpr ⟨(id, e), lookupIndex_mem h, rfl⟩

theorem eraseIndex_sublist (idx : List (OrderId × OrderEntry)) (id : OrderId) :
    List.Sublist (eraseIndex idx id) idx :=
  List.filter_sublist idx

theorem mem_eraseIndex {idx : List (OrderId × OrderEntry)} {id : OrderId}
    {p : OrderId × OrderEntry} : p ∈ eraseIndex idx id ↔ p ∈ idx ∧ p.1 ≠ id := by
  simp [eraseIndex, List.mem_filter]

theorem lookupIndex_eraseIndex_self (idx : List (OrderId × OrderEntry))
    (id : OrderId) : lookupIndex (eraseIndex idx id) id = none := by
  rw [lookupIndex_eq_none]
  intro hmem
  obtain ⟨p, hp, hfst⟩ := List.mem_map.mp hmem
  exact absurd hfst (mem_eraseIndex.mp hp).2

theorem eraseIndex_eq_self {idx : List (OrderId × OrderEntry)} {id : OrderId}
    (h : id ∉ idx.map Prod.fst) : eraseIndex idx id = idx := by
  refine List.filter_eq_self.mpr ?_
  intro p hp
  simp only [decide_eq_true_eq]
  intro hfst
  exact h (List.mem_map.mpr ⟨p, hp, hfst⟩)

theorem length_eraseIndex {idx : List (OrderId × OrderEntry)} {id : OrderId}
    (hnd : (idx.map Prod.fst).Nodup) (hmem : id ∈ idx.map Prod.fst) :
    (eraseIndex idx id).length + 1 = idx.length := by
  induction idx with
  | nil => simp at hmem
  | cons p rest ih =>
    simp only [List.map_cons, List.nodup_cons] at hnd
    by_cases h1 : p.1 = id
    · have hkeys : id ∉ rest.map Prod.fst := h1 ▸ hnd.1
      have he : eraseIndex (p :: rest) id = eraseIndex rest id := by
        simp [eraseIndex, List.filter_cons, h1]
      rw [he, eraseIndex_eq_self hkeys]
      simp
    · have hmem2 : id ∈ rest.map Prod.fst := by
        rcases List.mem_cons.mp hmem with h | h
        · exact absurd h.symm h1
        · exact h
      have he : eraseIndex (p :: rest) id = p :: eraseIndex rest id := by
        simp [eraseIndex, List.filter_cons, h1]
      rw [he]
      have := ih hnd.2 hmem2
      simp only [List.length_cons]
      omega

/-! ### Sorted-head lemmas -/

theorem le_head_of_sorted_gt {k : Price} {ks : List Price} {x : Price}
    (hs : (k :: ks).Pairwise (· > ·)) (hx : x ∈ k :: ks) : x ≤ k := by
  rcases List.mem_cons.mp hx with h | h
  · exact le_of_eq h
  · exact le_of_lt ((List.pairwise_cons.mp hs).1 x h)

theorem ge_head_of_sorted_lt {k : Price} {ks : List Price} {x : Price}
    (hs : (k :: ks).Pairwise (· < ·)) (hx : x ∈ k :: ks) : k ≤ x := by
  rcases List.mem_cons.mp hx with h | h
  · exact ge_of_eq h
  · exact le_of_lt ((List.pairwise_cons.mp hs).1 x h)

/-! ### Ladder insertion lemmas -/

theorem insertBid_orders_perm (p : Price) (o : Order) (L : Ladder) :
    (ladderOrders (insertBid p o L)).Perm (o :: ladderOrders L) := by
  induction L with
  | nil => simp [insertBid, ladderOrders]
  | cons hd rest ih =>
    obtain ⟨q, l⟩ := hd
    by_cases h1 : p > q
    · simp [insertBid, h1, ladderOrders]
    · by_cases h2 : p = q
      · subst h2
        have he : insertBid p o ((p, l) :: rest) = (p, l ++ [o]) :: rest := by
          simp [insertBid, h1]
        rw [he]
        simp only [ladderOrders, List.map_cons, List.flatten_cons]
        rw [List.append_assoc, List.singleton_append]
        exact List.perm_middle
      · simp only [insertBid, if_neg h1, if_neg h2, ladderOrders, List.map_cons,
          List.flatten_cons]
        exact (List.Perm.append_left l ih).trans List.perm_middle

theorem insertAsk_orders_perm (p : Price) (o : Order) (L : Ladder) :
    (ladderOrders (insertAsk p o L)).Perm (o :: ladderOrders L) := by
  induction L with
  | nil => simp [insertAsk, ladderOrders]
  | cons hd rest ih =>
    obtain ⟨q, l⟩ := hd
    by_cases h1 : p < q
    · simp [insertAsk, h1, ladderOrders]
    · by_cases h2 : p = q
      · subst h2
        have he : insertAsk p o ((p, l) :: rest) = (p, l ++ [o]) :: rest := by
          simp [insertAsk, h1]
        rw [he]
        simp only [ladderOrders, List.map_cons, List.flatten_cons]
        rw [List.append_assoc, List.singleton_append]
        exact List.perm_middle
      · simp only [insertAsk, if_neg h1, if_neg h2, ladderOrders, List.map_cons,
          List.flatten_cons]
        exact (List.Perm.append_left l ih).trans List.perm_middle

theorem mem_keys_insertBid {p : Price} {o : Order} {L : Ladder} {k : Price}
    (h : k ∈ ladderKeys (insertBid p o L)) : k = p ∨ k ∈ ladderKeys L := by
  induction L with
  | nil => simpa [insertBid, ladderKeys] using h
  | cons hd rest ih =>
    obtain ⟨q, l⟩ := hd
    by_cases h1 : p > q
    · simpa [insertBid, h1, ladderKeys] using h
    · by_cases h2 : p = q
      · subst h2
        have he : insertBid p o ((p, l) :: rest) = (p, l ++ [o]) :: rest := by
          simp [insertBid, h1]
        rw [he] at h
        simpa [ladderKeys] using h
      · simp only [insertBid, if_neg h1, if_neg h2, ladderKeys, List.map_cons,
          List.mem_cons] at h
        rcases h with h | h
        · exact Or.inr (by simp [ladderKeys, h])
        · rcases ih h with h3 | h3
          · exact Or.inl h3
          · refine Or.inr ?_
            simp only [ladderKeys, List.map_cons, List.mem_cons]
            exact Or.inr (by simpa [ladderKeys] using h3)

theorem mem_keys_insertAsk {p : Price} {o : Order} {L : Ladder} {k : Price}
    (h : k ∈ ladderKeys (insertAsk p o L)) : k = p ∨ k ∈ ladderKeys L := by
  induction L with
  | nil => simpa [insertAsk, ladderKeys] using h
  | cons hd rest ih =>
    obtain ⟨q, l⟩ := hd
    by_cases h1 : p < q
    · simpa [insertAsk, h1, ladderKeys] using h
    · by_cases h2 : p = q
      · subst h2
        have he : insertAsk p o ((p, l) :: rest) = (p, l ++ [o]) :: rest := by
          simp [insertAsk, h1]
        rw [he] at h
        simpa [ladderKeys] using h
      · simp only [insertAsk, if_neg h1, if_neg h2, ladderKeys, List.map_cons,
          List.mem_cons] at h
        rcases h with h | h
        · exact Or.inr (by simp [ladderKeys, h])
        · rcases ih h with h3 | h3
          · exact Or.inl h3
          · refine Or.inr ?_
            simp only [ladderKeys, List.map_cons, List.mem_cons]
            exact Or.inr (by simpa [ladderKeys] using h3)

theorem insertBid_sorted {p : Price} {o : Order} {L : Ladder}
    (hs : (ladderKeys L).Pairwise (· > ·)) :
    (ladderKeys (insertBid p o L)).Pairwise (· > ·) := by
  induction L with
  | nil => simp [insertBid, ladderKeys]
  | cons hd rest ih =>
    obtain ⟨q, l⟩ := hd
    simp only [ladderKeys, List.map_cons, List.pairwise_cons] at hs
    by_cases h1 : p > q
    · simp only [insertBid, if_pos h1, ladderKeys, List.map_cons, List.pairwise_cons]
      refine ⟨?_, hs⟩
      intro x hx
      rcases List.mem_cons.mp hx with h | h
      · exact h ▸ h1
      · exact lt_trans (hs.1 x h) h1
    · by_cases h2 : p = q
      · subst h2
        have he : insertBid p o ((p, l) :: rest) = (p, l ++ [o]) :: rest := by
          simp [insertBid, h1]
        rw [he]
        simp only [ladderKeys, List.map_cons, List.pairwise_cons]
        exact hs
      · simp only [insertBid, if_neg h1, if_neg h2, ladderKeys, List.map_cons,
          List.pairwise_cons]
        refine ⟨?_, ih hs.2⟩
        intro x hx
        rcases mem_keys_insertBid (show x ∈ ladderKeys (insertBid p o rest) from hx)
          with h | h
        · subst h
          exact lt_of_le_of_ne (not_lt.mp h1) h2
        · exact hs.1 x (by simpa [ladderKeys] using h)

theorem insertAsk_sorted {p : Price} {o : Order} {L : Ladder}
    (hs : (ladderKeys L).Pairwise (· < ·)) :
    (ladderKeys (insertAsk p o L)).Pairwise (· < ·) := by
  induction L with
  | nil => simp [insertAsk, ladderKeys]
  | cons hd rest ih =>
    obtain ⟨q, l⟩ := hd
    simp only [ladderKeys, List.map_cons, List.pairwise_cons] at hs
    by_cases h1 : p < q
    · simp only [insertAsk, if_pos h1, ladderKeys, List.map_cons, List.pairwise_cons]
      refine ⟨?_, hs⟩
      intro x hx
      rcases List.mem_cons.mp hx with h | h
      · exact h ▸ h1
      · exact lt_trans h1 (hs.1 x h)
    · by_cases h2 : p = q
      · subst h2
        have he : insertAsk p o ((p, l) :: rest) = (p, l ++ [o]) :: rest := by
          simp [insertAsk, h1]
        rw [he]
        simp only [ladderKeys, List.map_cons, List.pairwise_cons]
        exact hs
      · simp only [insertAsk, if_neg h1, if_neg h2, ladderKeys, List.map_cons,
          List.pairwise_cons]
        refine ⟨?_, ih hs.2⟩
        intro x hx
        rcases mem_keys_insertAsk (show x ∈ ladderKeys (insertAsk p o rest) from hx)
          with h | h
        · subst h
          exact lt_of_le_of_ne (not_lt.mp h1) (Ne.symm h2)
        · exact hs.1 x (by simpa [ladderKeys] using h)

@[simp] theorem ladderOrders_nil : ladderOrders [] = [] := rfl

@[simp] theorem ladderOrders_cons (q : Price) (l : List Order) (rest : Ladder) :
    ladderOrders ((q, l) :: rest) = l ++ ladderOrders rest := by
  simp [ladderOrders]

@[simp] theorem ladderKeys_nil : ladderKeys [] = [] := rfl

@[simp] theorem ladderKeys_cons (q : Price) (l : List Order) (rest : Ladder) :
    ladderKeys ((q, l) :: rest) = q :: ladderKeys rest := rfl

@[simp] theorem entryOf_fill (o : Order) (q : Quantity) :
    entryOf (o.fill q) = entryOf o := rfl

@[simp] theorem fill_remaining (o : Order) (q : Quantity) :
    (o.fill q).remainingQuantity = o.remainingQuantity - q := rfl

theorem insertBid_NE {p : Price} {o : Order} {L : Ladder}
    (h : ∀ pl ∈ L, pl.2 ≠ []) : ∀ pl ∈ insertBid p o L, pl.2 ≠ [] := by
  induction L with
  | nil =>
    intro pl hpl
    simp only [insertBid, List.mem_singleton] at hpl
    subst hpl; simp
  | cons hd rest ih =>
    obtain ⟨q, l⟩ := hd
    have hrest := fun pl hpl => h pl (List.mem_cons_of_mem _ hpl)
    have hhd := h (q, l) (List.mem_cons_self _ _)
    intro pl hpl
    by_cases h1 : p > q
    · simp only [insertBid, if_pos h1, List.mem_cons] at hpl
      rcases hpl with h2 | h2 | h2
      · subst h2; simp
      · subst h2; exact hhd
      · exact hrest pl h2
    · by_cases h2 : p = q
      · subst h2
        have he : insertBid p o ((p, l) :: rest) = (p, l ++ [o]) :: rest := by
          simp [insertBid, h1]
        rw [he] at hpl
        rcases List.mem_cons.mp hpl with h3 | h3
        · subst h3; simp
        · exact hrest pl h3
      · simp only [insertBid, if_neg h1, if_neg h2, List.mem_cons] at hpl
        rcases hpl with h3 | h3
        · subst h3; exact hhd
        · exact ih hrest pl h3

theorem insertAsk_NE {p : Price} {o : Order} {L : Ladder}
    (h : ∀ pl ∈ L, pl.2 ≠ []) : ∀ pl ∈ insertAsk p o L, pl.2 ≠ [] := by
  induction L with
  | nil =>
    intro pl hpl
    simp only [insertAsk, List.mem_singleton] at hpl
    subst hpl; simp
  | cons hd rest ih =>
    obtain ⟨q, l⟩ := hd
    have hrest := fun pl hpl => h pl (List.mem_cons_of_mem _ hpl)
    have hhd := h (q, l) (List.mem_cons_self _ _)
    intro pl hpl
    by_cases h1 : p < q
    · simp only [insertAsk, if_pos h1, List.mem_cons] at hpl
      rcases hpl with h2 | h2 | h2
      · subst h2; simp
      · subst h2; exact hhd
      · exact hrest pl h2
    · by_cases h2 : p = q
      · subst h2
        have he : insertAsk p o ((p, l) :: rest) = (p, l ++ [o]) :: rest := by
          simp [insertAsk, h1]
        rw [he] at hpl
        rcases List.mem_cons.mp hpl with h3 | h3
        · subst h3; simp
        · exact hrest pl h3
      · simp only [insertAsk, if_neg h1, if_neg h2, List.mem_cons] at hpl
        rcases hpl with h3 | h3
        · subst h3; exact hhd
        · exact ih hrest pl h3

theorem insertBid_forall {P : Order → Price → Prop} {p : Price} {o : Order}
    {L : Ladder} (hL : ∀ pl ∈ L, ∀ o2 ∈ pl.2, P o2 pl.1) (ho : P o p) :
    ∀ pl ∈ insertBid p o L, ∀ o2 ∈ pl.2, P o2 pl.1 := by
  induction L with
  | nil =>
    intro pl hpl o2 ho2
    simp only [insertBid, List.mem_singleton] at hpl
    subst hpl
    simp only [List.mem_singleton] at ho2
    subst ho2; exact ho
  | cons hd rest ih =>
    obtain ⟨q, l⟩ := hd
    have hrest := fun pl hpl => hL pl (List.mem_cons_of_mem _ hpl)
    have hhd := hL (q, l) (List.mem_cons_self _ _)
    intro pl hpl
    by_cases h1 : p > q
    · simp only [insertBid, if_pos h1, List.mem_cons] at hpl
      rcases hpl with h2 | h2 | h2
      · subst h2
        intro o2 ho2
        simp only [List.mem_singleton] at ho2
        subst ho2; exact ho
      · subst h2; exact hhd
      · exact hrest pl h2
    · by_cases h2 : p = q
      · subst h2
        have he : insertBid p o ((p, l) :: rest) = (p, l ++ [o]) :: rest := by
          simp [insertBid, h1]
        rw [he] at hpl
        rcases List.mem_cons.mp hpl with h3 | h3
        · subst h3
          intro o2 ho2
          rcases List.mem_append.mp ho2 with h4 | h4
          · exact hhd o2 h4
          · simp only [List.mem_singleton] at h4
            subst h4; exact ho
        · exact hrest pl h3
      · simp only [insertBid, if_neg h1, if_neg h2, List.mem_cons] at hpl
        rcases hpl with h3 | h3
        · subst h3; exact hhd
        · exact ih hrest pl h3

theorem insertAsk_forall {P : Order → Price → Prop} {p : Price} {o : Order}
    {L : Ladder} (hL : ∀ pl ∈ L, ∀ o2 ∈ pl.2, P o2 pl.1) (ho : P o p) :
    ∀ pl ∈ insertAsk p o L, ∀ o2 ∈ pl.2, P o2 pl.1 := by
  induction L with
  | nil =>
    intro pl hpl o2 ho2
    simp only [insertAsk, List.mem_singleton] at hpl
    subst hpl
    simp only [List.mem_singleton] at ho2
    subst ho2; exact ho
  | cons hd rest ih =>
    obtain ⟨q, l⟩ := hd
    have hrest := fun pl hpl => hL pl (List.mem_cons_of_mem _ hpl)
    have hhd := hL (q, l) (List.mem_cons_self _ _)
    intro pl hpl
    by_cases h1 : p < q
    · simp only [insertAsk, if_pos h1, List.mem_cons] at hpl
      rcases hpl with h2 | h2 | h2
      · subst h2
        intro o2 ho2
        simp only [List.mem_singleton] at ho2
        subst ho2; exact ho
      · subst h2; exact hhd
      · exact hrest pl h2
    · by_cases h2 : p = q
      · subst h2
        have he : insertAsk p o ((p, l) :: rest) = (p, l ++ [o]) :: rest := by
          simp [insertAsk, h1]
        rw [he] at hpl
        rcases List.mem_cons.mp hpl with h3 | h3
        · subst h3
          intro o2 ho2
          rcases List.mem_append.mp ho2 with h4 | h4
          · exact hhd o2 h4
          · simp only [List.mem_singleton] at h4
            subst h4; exact ho
        · exact hrest pl h3
      · simp only [insertAsk, if_neg h1, if_neg h2, List.mem_cons] at hpl
        rcases hpl with h3 | h3
        · subst h3; exact hhd
        · exact ih hrest pl h3

theorem queueAt_eq_nil {L : Ladder} {p : Price} (h : p ∉ ladderKeys L) :
    queueAt L p = [] := by
  induction L with
  | nil => rfl
  | cons hd rest ih =>
    obtain ⟨q, l⟩ := hd
    simp only [ladderKeys_cons, List.mem_cons] at h
    push_neg at h
    simp only [queueAt, if_neg (Ne.symm h.1)]
    exact ih h.2

theorem queueAt_insertBid_self {p : Price} {o : Order} {L : Ladder}
    (hs : (ladderKeys L).Pairwise (· > ·)) :
    queueAt (insertBid p o L) p = queueAt L p ++ [o] := by
  induction L with
  | nil => simp [insertBid, queueAt]
  | cons hd rest ih =>
    obtain ⟨q, l⟩ := hd
    simp only [ladderKeys_cons, List.pairwise_cons] at hs
    by_cases h1 : p > q
    · have hnot : p ∉ ladderKeys ((q, l) :: rest) := by
        simp only [ladderKeys_cons, List.mem_cons]
        push_neg
        exact ⟨fun he => absurd (he ▸ h1) (lt_irrefl q),
          fun hmem => absurd (lt_trans (hs.1 p hmem) h1) (lt_irrefl p)⟩
      rw [show insertBid p o ((q, l) :: rest) = (p, [o]) :: (q, l) :: rest from by
        simp [insertBid, h1]]
      rw [queueAt_eq_nil hnot]
      simp [queueAt]
    · by_cases h2 : p = q
      · subst h2
        have he : insertBid p o ((p, l) :: rest) = (p, l ++ [o]) :: rest := by
          simp [insertBid, h1]
        rw [he]
        simp [queueAt]
      · simp only [insertBid, if_neg h1, if_neg h2, queueAt, if_neg (Ne.symm h2)]
        exact ih hs.2

theorem queueAt_insertAsk_self {p : Price} {o : Order} {L : Ladder}
    (hs : (ladderKeys L).Pairwise (· < ·)) :
    queueAt (insertAsk p o L) p = queueAt L p ++ [o] := by
  induction L with
  | nil => simp [insertAsk, queueAt]
  | cons hd rest ih =>
    obtain ⟨q, l⟩ := hd
    simp only [ladderKeys_cons, List.pairwise_cons] at hs
    by_cases h1 : p < q
    · have hnot : p ∉ ladderKeys ((q, l) :: rest) := by
        simp only [ladderKeys_cons, List.mem_cons]
        push_neg
        exact ⟨fun he => absurd (he ▸ h1) (lt_irrefl q),
          fun hmem => absurd (lt_trans h1 (hs.1 p hmem)) (lt_irrefl p)⟩
      rw [show insertAsk p o ((q, l) :: rest) = (p, [o]) :: (q, l) :: rest from by
        simp [insertAsk, h1]]
      rw [queueAt_eq_nil hnot]
      simp [queueAt]
    · by_cases h2 : p = q
      · subst h2
        have he : insertAsk p o ((p, l) :: rest) = (p, l ++ [o]) :: rest := by
          simp [insertAsk, h1]
        rw [he]
        simp [queueAt]
      · simp only [insertAsk, if_neg h1, if_neg h2, queueAt, if_neg (Ne.symm h2)]
        exact ih hs.2

/-! ### Removal lemmas -/

theorem removeFirstById_sublist (l : List Order) (id : OrderId) :
    List.Sublist (removeFirstById l id) l := by
  induction l with
  | nil => simp [removeFirstById]
  | cons o rest ih =>
    by_cases h : o.orderId = id
    · simp only [removeFirstById, if_pos h]
      exact List.sublist_cons_self o rest
    · simp only [removeFirstById, if_neg h]
      exact ih.cons₂ o

theorem removeFirstById_eq_filter {l : List Order} {id : OrderId}
    (hnd : (l.map Order.orderId).Nodup) :
    removeFirstById l id = l.filter (fun o => o.orderId ≠ id) := by
  induction l with
  | nil => rfl
  | cons o rest ih =>
    simp only [List.map_cons, List.nodup_cons] at hnd
    by_cases h : o.orderId = id
    · simp only [removeFirstById, if_pos h, List.filter_cons]
      have : (decide (o.orderId ≠ id)) = false := by simp [h]
      rw [this]
      simp only [Bool.false_eq_true, if_false]
      refine (List.filter_eq_self.mpr ?_).symm
      intro o2 ho2
      simp only [decide_eq_true_eq]
      intro he
      exact hnd.1 (h ▸ he ▸ List.mem_map_of_mem Order.orderId ho2)
    · simp only [removeFirstById, if_neg h, List.filter_cons]
      have : (decide (o.orderId ≠ id)) = true := by simp [h]
      rw [this]
      simp only [if_true]
      rw [ih hnd.2]

theorem removeFromLadder_keys_sublist (L : Ladder) (p : Price) (id : OrderId) :
    List.Sublist (ladderKeys (removeFromLadder L p id)) (ladderKeys L) := by
  induction L with
  | nil => simp [removeFromLadder]
  | cons hd rest ih =>
    obtain ⟨q, l⟩ := hd
    by_cases h : q = p
    · simp only [removeFromLadder, if_pos h]
      by_cases he : (removeFirstById l id).isEmpty
      · simp only [he, if_true, ladderKeys_cons]
        exact List.sublist_cons_self q (ladderKeys rest)
      · simp only [he, Bool.false_eq_true, if_false, ladderKeys_cons]
        exact List.Sublist.refl _
    · simp only [removeFromLadder, if_neg h, ladderKeys_cons]
      exact ih.cons₂ q

theorem removeFromLadder_orders_sublist (L : Ladder) (p : Price) (id : OrderId) :
    List.Sublist (ladderOrders (removeFromLadder L p id)) (ladderOrders L) := by
  induction L with
  | nil => simp [removeFromLadder]
  | cons hd rest ih =>
    obtain ⟨q, l⟩ := hd
    by_cases h : q = p
    · simp only [removeFromLadder, if_pos h]
      by_cases he : (removeFirstById l id).isEmpty
      · simp only [he, if_true, ladderOrders_cons]
        exact List.sublist_append_right l (ladderOrders rest)
      · simp only [he, Bool.false_eq_true, if_false, ladderOrders_cons]
        exact List.Sublist.append (removeFirstById_sublist l id) (List.Sublist.refl _)
    · simp only [removeFromLadder, if_neg h, ladderOrders_cons]
      exact List.Sublist.append (List.Sublist.refl l) ih

theorem removeFromLadder_NE {L : Ladder} {p : Price} {id : OrderId}
    (h : ∀ pl ∈ L, pl.2 ≠ []) : ∀ pl ∈ removeFromLadder L p id, pl.2 ≠ [] := by
  induction L with
  | nil => intro pl hpl; simp [removeFromLadder] at hpl
  | cons hd rest ih =>
    obtain ⟨q, l⟩ := hd
    have hrest := fun pl hpl => h pl (List.mem_cons_of_mem _ hpl)
    intro pl hpl
    by_cases hq : q = p
    · simp only [removeFromLadder, if_pos hq] at hpl
      by_cases he : (removeFirstById l id).isEmpty
      · simp only [he, if_true] at hpl
        exact hrest pl hpl
      · simp only [he, Bool.false_eq_true, if_false, List.mem_cons] at hpl
        rcases hpl with h2 | h2
        · subst h2
          intro hc
          exact he (by simpa [List.isEmpty_iff] using hc)
        · exact hrest pl h2
    · simp only [removeFromLadder, if_neg hq, List.mem_cons] at hpl
      rcases hpl with h2 | h2
      · subst h2; exact h (q, l) (List.mem_cons_self _ _)
      · exact ih hrest pl h2

theorem removeFromLadder_forall {P : Order → Price → Prop} {L : Ladder}
    {p : Price} {id : OrderId} (h : ∀ pl ∈ L, ∀ o ∈ pl.2, P o pl.1) :
    ∀ pl ∈ removeFromLadder L p id, ∀ o ∈ pl.2, P o pl.1 := by
  induction L with
  | nil => intro pl hpl; simp [removeFromLadder] at hpl
  | cons hd rest ih =>
    obtain ⟨q, l⟩ := hd
    have hrest := fun pl hpl => h pl (List.mem_cons_of_mem _ hpl)
    have hhd := h (q, l) (List.mem_cons_self _ _)
    intro pl hpl
    by_cases hq : q = p
    · simp only [removeFromLadder, if_pos hq] at hpl
      by_cases he : (removeFirstById l id).isEmpty
      · simp only [he, if_true] at hpl
        exact hrest pl hpl
      · simp only [he, Bool.false_eq_true, if_false, List.mem_cons] at hpl
        rcases hpl with h2 | h2
        · subst h2
          intro o ho
          exact hhd o ((removeFirstById_sublist l id).mem ho)
        · exact hrest pl h2
    · simp only [removeFromLadder, if_neg hq, List.mem_cons] at hpl
      rcases hpl with h2 | h2
      · subst h2; exact hhd
      · exact ih hrest pl h2

theorem removeFromLadder_orders_eq_filter {L : Ladder} {p : Price} {id : OrderId}
    (hkeys : (ladderKeys L).Nodup)
    (hnd : ((ladderOrders L).map Order.orderId).Nodup)
    (hocc : ∀ pl ∈ L, ∀ o ∈ pl.2, o.orderId = id → pl.1 = p) :
    ladderOrders (removeFromLadder L p id) =
      (ladderOrders L).filter (fun o => o.orderId ≠ id) := by
  induction L with
  | nil => rfl
  | cons hd rest ih =>
    obtain ⟨q, l⟩ := hd
    simp only [ladderKeys_cons, List.nodup_cons] at hkeys
    simp only [ladderOrders_cons, List.map_append, List.nodup_append] at hnd
    have hrest := fun pl hpl => hocc pl (List.mem_cons_of_mem _ hpl)
    by_cases hq : q = p
    · subst hq
      have hfl : removeFirstById l id = l.filter (fun o => o.orderId ≠ id) :=
        removeFirstById_eq_filter hnd.1
      have hrfilter : (ladderOrders rest).filter (fun o => o.orderId ≠ id) =
          ladderOrders rest := by
        refine List.filter_eq_self.mpr ?_
        intro o ho
        simp only [decide_eq_true_eq]
        intro he
        obtain ⟨pl2, hpl2, ho2⟩ : ∃ pl2 ∈ rest, o ∈ pl2.2 := by
          simp only [ladderOrders, List.mem_flatten, List.mem_map] at ho
          obtain ⟨l2, ⟨pl2, hpl2, hl2⟩, ho2⟩ := ho
          exact ⟨pl2, hpl2, hl2 ▸ ho2⟩
        have : pl2.1 = q := hrest pl2 hpl2 o ho2 he
        exact hkeys.1 (this ▸ List.mem_map_of_mem Prod.fst hpl2)
      have hrl : removeFromLadder ((q, l) :: rest) q id =
          if (removeFirstById l id).isEmpty then rest
          else (q, removeFirstById l id) :: rest := by
        simp [removeFromLadder]
      rw [hrl]
      by_cases he : (removeFirstById l id).isEmpty
      · rw [if_pos he]
        have hl2 : l.filter (fun o => o.orderId ≠ id) = [] := by
          rw [← hfl]; exact List.isEmpty_iff.mp he
        simp only [ladderOrders_cons, List.filter_append, hrfilter, hl2,
          List.nil_append]
      · rw [if_neg he]
        simp only [ladderOrders_cons, List.filter_append, hrfilter, hfl]
    · have hqfilter : l.filter (fun o => o.orderId ≠ id) = l := by
        refine List.filter_eq_self.mpr ?_
        intro o ho
        simp only [decide_eq_true_eq]
        intro he
        exact hq (hocc (q, l) (List.mem_cons_self _ _) o ho he)
      simp only [removeFromLadder, if_neg hq, ladderOrders_cons,
        List.filter_append, hqfilter]
      rw [ih hkeys.2 hnd.2.1 hrest]

/-! ### Inner matching loop lemmas -/

theorem matchLevel_entries : ∀ (fuel : Nat) (bq aq : List Order),
    bq.map entryOf = (matchLevel fuel bq aq).2.2.2.1.map entryOf ++
      (matchLevel fuel bq aq).2.1.map entryOf ∧
    aq.map entryOf = (matchLevel fuel bq aq).2.2.2.2.map entryOf ++
      (matchLevel fuel bq aq).2.2.1.map entryOf := by
  intro fuel
  induction fuel with
  | zero => intro bq aq; simp [matchLevel]
  | succ fuel ih =>
    intro bq aq
    match bq, aq with
    | [], aq => simp [matchLevel]
    | b :: bq, [] => simp [matchLevel]
    | b :: bq, a :: aq =>
      by_cases h1 : b.remainingQuantity ≤ a.remainingQuantity
      · by_cases h2 : a.remainingQuantity ≤ b.remainingQuantity
        · simp only [matchLevel, if_pos h1, if_pos h2, List.map_cons, entryOf_fill]
          exact ⟨by rw [(ih bq aq).1]; simp, by rw [(ih bq aq).2]; simp⟩
        · simp only [matchLevel, if_pos h1, if_neg h2, List.map_cons, entryOf_fill]
          refine ⟨by rw [(ih bq (a.fill (min b.remainingQuantity a.remainingQuantity) :: aq)).1]; simp, ?_⟩
          have := (ih bq (a.fill (min b.remainingQuantity a.remainingQuantity) :: aq)).2
          simp only [List.map_cons, entryOf_fill] at this
          rw [this]
      · simp only [matchLevel, if_neg h1, List.map_cons, entryOf_fill]
        refine ⟨?_, by rw [(ih (b.fill (min b.remainingQuantity a.remainingQuantity) :: bq) aq).2]; simp⟩
        have := (ih (b.fill (min b.remainingQuantity a.remainingQuantity) :: bq) aq).1
        simp only [List.map_cons, entryOf_fill] at this
        rw [this]

theorem matchLevel_exit : ∀ (fuel : Nat) (bq aq : List Order),
    bq.length + aq.length ≤ fuel →
    (matchLevel fuel bq aq).2.1 = [] ∨ (matchLevel fuel bq aq).2.2.1 = [] := by
  intro fuel
  induction fuel with
  | zero =>
    intro bq aq h
    have hb : bq = [] := List.length_eq_zero.mp (by omega)
    subst hb
    simp [matchLevel]
  | succ fuel ih =>
    intro bq aq h
    match bq, aq with
    | [], aq => simp [matchLevel]
    | b :: bq, [] => simp [matchLevel]
    | b :: bq, a :: aq =>
      simp only [List.length_cons] at h
      by_cases h1 : b.remainingQuantity ≤ a.remainingQuantity
      · by_cases h2 : a.remainingQuantity ≤ b.remainingQuantity
        · simp only [matchLevel, if_pos h1, if_pos h2]
          exact ih bq aq (by omega)
        · simp only [matchLevel, if_pos h1, if_neg h2]
          exact ih bq (a.fill (min b.remainingQuantity a.remainingQuantity) :: aq)
            (by simp only [List.length_cons]; omega)
      · simp only [matchLevel, if_neg h1]
        exact ih (b.fill (min b.remainingQuantity a.remainingQuantity) :: bq) aq
          (by simp only [List.length_cons]; omega)

theorem matchLevel_len : ∀ (fuel : Nat) (bq aq : List Order),
    (matchLevel fuel bq aq).2.1.length ≤ bq.length ∧
    (matchLevel fuel bq aq).2.2.1.length ≤ aq.length := by
  intro fuel
  induction fuel with
  | zero => intro bq aq; simp [matchLevel]
  | succ fuel ih =>
    intro bq aq
    match bq, aq with
    | [], aq => simp [matchLevel]
    | b :: bq, [] => simp [matchLevel]
    | b :: bq, a :: aq =>
      by_cases h1 : b.remainingQuantity ≤ a.remainingQuantity
      · by_cases h2 : a.remainingQuantity ≤ b.remainingQuantity
        · simp only [matchLevel, if_pos h1, if_pos h2, List.length_cons]
          have := ih bq aq
          omega
        · simp only [matchLevel, if_pos h1, if_neg h2, List.length_cons]
          have := ih bq (a.fill (min b.remainingQuantity a.remainingQuantity) :: aq)
          simp only [List.length_cons] at this
          omega
      · simp only [matchLevel, if_neg h1, List.length_cons]
        have := ih (b.fill (min b.remainingQuantity a.remainingQuantity) :: bq) aq
        simp only [List.length_cons] at this
        omega

theorem matchLevel_consumes : ∀ (fuel : Nat) (bq aq : List Order),
    bq ≠ [] → aq ≠ [] → 1 ≤ fuel →
    (matchLevel fuel bq aq).2.1.length + (matchLevel fuel bq aq).2.2.1.length <
      bq.length + aq.length := by
  intro fuel bq aq hb ha hf
  match fuel, bq, aq with
  | fuel + 1, b :: bq, a :: aq =>
    by_cases h1 : b.remainingQuantity ≤ a.remainingQuantity
    · by_cases h2 : a.remainingQuantity ≤ b.remainingQuantity
      · simp only [matchLevel, if_pos h1, if_pos h2, List.length_cons]
        have := matchLevel_len fuel bq aq
        omega
      · simp only [matchLevel, if_pos h1, if_neg h2, List.length_cons]
        have := matchLevel_len fuel bq
          (a.fill (min b.remainingQuantity a.remainingQuantity) :: aq)
        simp only [List.length_cons] at this
        omega
    · simp only [matchLevel, if_neg h1, List.length_cons]
      have := matchLevel_len fuel
        (b.fill (min b.remainingQuantity a.remainingQuantity) :: bq) aq
      simp only [List.length_cons] at this
      omega

theorem matchLevel_pos : ∀ (fuel : Nat) (bq aq : List Order),
    (∀ o ∈ bq, 0 < o.remainingQuantity) → (∀ o ∈ aq, 0 < o.remainingQuantity) →
    (∀ o ∈ (matchLevel fuel bq aq).2.1, 0 < o.remainingQuantity) ∧
    (∀ o ∈ (matchLevel fuel bq aq).2.2.1, 0 < o.remainingQuantity) := by
  intro fuel
  induction fuel with
  | zero => intro bq aq hb ha; simpa [matchLevel] using ⟨hb, ha⟩
  | succ fuel ih =>
    intro bq aq hb ha
    match bq, aq with
    | [], aq => simpa [matchLevel] using ha
    | b :: bq, [] => simpa [matchLevel] using hb
    | b :: bq, a :: aq =>
      have hbrest := fun o ho => hb o (List.mem_cons_of_mem _ ho)
      have harest := fun o ho => ha o (List.mem_cons_of_mem _ ho)
      by_cases h1 : b.remainingQuantity ≤ a.remainingQuantity
      · by_cases h2 : a.remainingQuantity ≤ b.remainingQuantity
        · simp only [matchLevel, if_pos h1, if_pos h2]
          exact ih bq aq hbrest harest
        · simp only [matchLevel, if_pos h1, if_neg h2]
          refine ih bq (a.fill (min b.remainingQuantity a.remainingQuantity) :: aq)
            hbrest ?_
          intro o ho
          rcases List.mem_cons.mp ho with h3 | h3
          · subst h3
            have hfa : (a.fill (min b.remainingQuantity a.remainingQuantity)).remainingQuantity
                = a.remainingQuantity - min b.remainingQuantity a.remainingQuantity := rfl
            rw [hfa, min_eq_left h1]
            exact Nat.sub_pos_of_lt (lt_of_not_le h2)
          · exact harest o h3
      · simp only [matchLevel, if_neg h1]
        refine ih (b.fill (min b.remainingQuantity a.remainingQuantity) :: bq) aq
          ?_ harest
        intro o ho
        rcases List.mem_cons.mp ho with h3 | h3
        · subst h3
          have hfb : (b.fill (min b.remainingQuantity a.remainingQuantity)).remainingQuantity
              = b.remainingQuantity - min b.remainingQuantity a.remainingQuantity := rfl
          rw [hfb, min_eq_right (le_of_not_le h1)]
          exact Nat.sub_pos_of_lt (lt_of_not_le h1)
        · exact hbrest o h3

theorem matchLevel_trades : ∀ (fuel : Nat) (bq aq : List Order),
    ∀ t ∈ (matchLevel fuel bq aq).1,
    t.bidTrade.quantity = t.askTrade.quantity ∧
    t.bidTrade.price = t.askTrade.price ∧
    ∃ a ∈ aq, a.orderId = t.askTrade.orderId ∧ a.price = t.askTrade.price := by
  intro fuel
  induction fuel with
  | zero => intro bq aq t ht; simp [matchLevel] at ht
  | succ fuel ih =>
    intro bq aq t ht
    match bq, aq with
    | [], aq => simp [matchLevel] at ht
    | b :: bq, [] => simp [matchLevel] at ht
    | b :: bq, a :: aq =>
      by_cases h1 : b.remainingQuantity ≤ a.remainingQuantity
      · by_cases h2 : a.remainingQuantity ≤ b.remainingQuantity
        · simp only [matchLevel, if_pos h1, if_pos h2, List.mem_cons] at ht
          rcases ht with h3 | h3
          · subst h3
            exact ⟨rfl, rfl, a, List.mem_cons_self _ _, rfl, rfl⟩
          · obtain ⟨hq, hp, w, hw, hwid, hwp⟩ := ih bq aq t h3
            exact ⟨hq, hp, w, List.mem_cons_of_mem _ hw, hwid, hwp⟩
        · simp only [matchLevel, if_pos h1, if_neg h2, List.mem_cons] at ht
          rcases ht with h3 | h3
          · subst h3
            exact ⟨rfl, rfl, a, List.mem_cons_self _ _, rfl, rfl⟩
          · obtain ⟨hq, hp, w, hw, hwid, hwp⟩ :=
              ih bq (a.fill (min b.remainingQuantity a.remainingQuantity) :: aq) t h3
            rcases List.mem_cons.mp hw with h4 | h4
            · subst h4
              exact ⟨hq, hp, a, List.mem_cons_self _ _, hwid, hwp⟩
            · exact ⟨hq, hp, w, List.mem_cons_of_mem _ h4, hwid, hwp⟩
      · simp only [matchLevel, if_neg h1, List.mem_cons] at ht
        rcases ht with h3 | h3
        · subst h3
          exact ⟨rfl, rfl, a, List.mem_cons_self _ _, rfl, rfl⟩
        · obtain ⟨hq, hp, w, hw, hwid, hwp⟩ :=
            ih (b.fill (min b.remainingQuantity a.remainingQuantity) :: bq) aq t h3
          exact ⟨hq, hp, w, List.mem_cons_of_mem _ hw, hwid, hwp⟩

/-! ### Index erasure of popped orders -/

theorem eraseAll_append (idx : List (OrderId × OrderEntry)) (l1 l2 : List Order) :
    eraseAll idx (l1 ++ l2) = eraseAll (eraseAll idx l1) l2 := by
  simp [eraseAll, List.foldl_append]

theorem eraseAll_eq_filter (idx : List (OrderId × OrderEntry))
    (removed : List Order) :
    eraseAll idx removed =
      idx.filter (fun p => removed.all (fun o => o.orderId ≠ p.1)) := by
  induction removed generalizing idx with
  | nil => simp [eraseAll]
  | cons o rest ih =>
    have h1 : eraseAll idx (o :: rest) = eraseAll (eraseIndex idx o.orderId) rest := by
      simp [eraseAll, List.foldl_cons]
    rw [h1, ih]
    simp only [eraseIndex]
    rw [List.filter_filter]
    apply List.filter_congr
    intro p hp
    simp [List.all_cons, Bool.and_comm, ne_comm]

theorem filter_notRemoved_eq_self {l : List (OrderId × OrderEntry)}
    {removed : List Order} (h : ∀ p ∈ l, p.1 ∉ removed.map Order.orderId) :
    l.filter (fun p => removed.all (fun o => o.orderId ≠ p.1)) = l := by
  refine List.filter_eq_self.mpr ?_
  intro p hp
  rw [List.all_eq_true]
  intro o ho
  simp only [decide_eq_true_eq]
  intro he
  exact h p hp (List.mem_map.mpr ⟨o, ho, he⟩)

theorem filter_removed_eq_nil {l : List (OrderId × OrderEntry)}
    {removed : List Order} (h : ∀ p ∈ l, p.1 ∈ removed.map Order.orderId) :
    l.filter (fun p => removed.all (fun o => o.orderId ≠ p.1)) = [] := by
  rw [List.filter_eq_nil_iff]
  intro p hp
  intro hall
  rw [List.all_eq_true] at hall
  obtain ⟨o, ho, he⟩ := List.mem_map.mp (h p hp)
  have := hall o ho
  simp only [decide_eq_true_eq] at this
  exact this he

theorem entries_transport {l1 l2 : List Order}
    (h : ∀ e ∈ l2.map entryOf, e ∈ l1.map entryOf) :
    ∀ o ∈ l2, ∃ o0 ∈ l1, o0.orderId = o.orderId ∧ o0.side = o.side ∧
      o0.price = o.price ∧ o0.orderType = o.orderType := by
  intro o ho
  obtain ⟨o0, ho0, he⟩ := List.mem_map.mp (h (entryOf o) (List.mem_map_of_mem _ ho))
  refine ⟨o0, ho0, congrArg Prod.fst he, ?_, ?_, ?_⟩
  · exact congrArg (fun q => q.2.side) he
  · exact congrArg (fun q => q.2.price) he
  · exact congrArg (fun q => q.2.orderType) he

/-! ### Outer matching loop lemmas -/

theorem matchLoop_succ_cross {fuel : Nat} {bp ap : Price} {bq aq : List Order}
    {brest arest : Ladder} {idx : List (OrderId × OrderEntry)}
    {ts : List Trade} {bq2 aq2 remB remA : List Order}
    (h : ¬ bp < ap)
    (hr : matchLevel (bq.length + aq.length) bq aq = (ts, bq2, aq2, remB, remA)) :
    matchLoop (fuel + 1) ⟨(bp, bq) :: brest, (ap, aq) :: arest, idx⟩ =
      (ts ++ (matchLoop fuel ⟨(if bq2.isEmpty then brest else (bp, bq2) :: brest),
        (if aq2.isEmpty then arest else (ap, aq2) :: arest),
        eraseAll (eraseAll idx remB) remA⟩).1,
       (matchLoop fuel ⟨(if bq2.isEmpty then brest else (bp, bq2) :: brest),
        (if aq2.isEmpty then arest else (ap, aq2) :: arest),
        eraseAll (eraseAll idx remB) remA⟩).2) := by
  simp [matchLoop, h, hr]

theorem matchLoop_exit : ∀ (fuel : Nat) (b : Book),
    b.bids.length + b.asks.length < fuel → headsLT (matchLoop fuel b).2 := by
  intro fuel
  induction fuel with
  | zero => intro b h; omega
  | succ fuel ih =>
    intro b h
    obtain ⟨bids, asks, idx⟩ := b
    rcases bids with _ | ⟨⟨bp, bq⟩, brest⟩
    · intro bl hbl al hal
      simp [matchLoop] at hbl
    · rcases asks with _ | ⟨⟨ap, aq⟩, arest⟩
      · intro bl hbl al hal
        simp [matchLoop] at hal
      · by_cases hlt : bp < ap
        · have : matchLoop (fuel + 1)
              ⟨(bp, bq) :: brest, (ap, aq) :: arest, idx⟩ =
              ([], ⟨(bp, bq) :: brest, (ap, aq) :: arest, idx⟩) := by
            simp [matchLoop, hlt]
          rw [this]
          intro bl hbl al hal
          simp only [Option.mem_def, List.head?_cons, Option.some.injEq] at hbl hal
          subst hbl; subst hal
          exact hlt
        · rcases hr : matchLevel (bq.length + aq.length) bq aq with
            ⟨ts, bq2, aq2, remB, remA⟩
          rw [matchLoop_succ_cross hlt hr]
          apply ih
          have hone : bq2 = [] ∨ aq2 = [] := by
            have := matchLevel_exit (bq.length + aq.length) bq aq (le_refl _)
            rw [hr] at this
            exact this
          simp only [List.length_cons] at h
          rcases hone with h2 | h2
          · subst h2
            simp only [List.isEmpty_nil, if_true]
            by_cases h3 : aq2.isEmpty
            · simp only [h3, if_true]
              simp only [Book.bids, Book.asks] at *
              omega
            · simp only [h3, Bool.false_eq_true, if_false]
              simp only [Book.bids, Book.asks, List.length_cons] at *
              omega
          · subst h2
            simp only [List.isEmpty_nil, if_true]
            by_cases h3 : bq2.isEmpty
            · simp only [h3, if_true]
              simp only [Book.bids, Book.asks] at *
              omega
            · simp only [h3, Bool.false_eq_true, if_false]
              simp only [Book.bids, Book.asks, List.length_cons] at *
              omega

theorem matchLoop_fuel_ext : ∀ (f1 f2 : Nat) (b : Book),
    b.bids.length + b.asks.length < f1 → b.bids.length + b.asks.length < f2 →
    matchLoop f1 b = matchLoop f2 b := by
  intro f1
  induction f1 with
  | zero => intro f2 b h1 h2; omega
  | succ f1 ih =>
    intro f2 b h1 h2
    rcases f2 with _ | f2
    · omega
    · obtain ⟨bids, asks, idx⟩ := b
      rcases bids with _ | ⟨⟨bp, bq⟩, brest⟩
      · simp [matchLoop]
      · rcases asks with _ | ⟨⟨ap, aq⟩, arest⟩
        · simp [matchLoop]
        · by_cases hlt : bp < ap
          · simp [matchLoop, hlt]
          · rcases hr : matchLevel (bq.length + aq.length) bq aq with
              ⟨ts, bq2, aq2, remB, remA⟩
            rw [matchLoop_succ_cross hlt hr, matchLoop_succ_cross hlt hr]
            have hone : bq2 = [] ∨ aq2 = [] := by
              have := matchLevel_exit (bq.length + aq.length) bq aq (le_refl _)
              rw [hr] at this
              exact this
            simp only [Book.bids, Book.asks, List.length_cons] at h1 h2
            rcases hone with h3 | h3
            · subst h3
              simp only [List.isEmpty_nil, if_true]
              by_cases h4 : aq2.isEmpty
              · simp only [h4, if_true]
                rw [ih f2 _ (by simp only [Book.bids, Book.asks]; omega)
                  (by simp only [Book.bids, Book.asks]; omega)]
              · simp only [h4, Bool.false_eq_true, if_false]
                rw [ih f2 _
                  (by simp only [Book.bids, Book.asks, List.length_cons]; omega)
                  (by simp only [Book.bids, Book.asks, List.length_cons]; omega)]
            · subst h3
              simp only [List.isEmpty_nil, if_true]
              by_cases h4 : bq2.isEmpty
              · simp only [h4, if_true]
                rw [ih f2 _ (by simp only [Book.bids, Book.asks]; omega)
                  (by simp only [Book.bids, Book.asks]; omega)]
              · simp only [h4, Bool.false_eq_true, if_false]
                rw [ih f2 _
                  (by simp only [Book.bids, Book.asks, List.length_cons]; omega)
                  (by simp only [Book.bids, Book.asks, List.length_cons]; omega)]

theorem matchLoop_trades : ∀ (fuel : Nat) (b : Book), ∀ t ∈ (matchLoop fuel b).1,
    t.bidTrade.quantity = t.askTrade.quantity ∧
    t.bidTrade.price = t.askTrade.price ∧
    ∃ e ∈ (ladderOrders b.asks).map entryOf,
      e.1 = t.askTrade.orderId ∧ e.2.price = t.askTrade.price := by
  intro fuel
  induction fuel with
  | zero => intro b t ht; simp [matchLoop] at ht
  | succ fuel ih =>
    intro b t ht
    obtain ⟨bids, asks, idx⟩ := b
    rcases bids with _ | ⟨⟨bp, bq⟩, brest⟩
    · simp [matchLoop] at ht
    · rcases asks with _ | ⟨⟨ap, aq⟩, arest⟩
      · simp [matchLoop] at ht
      · by_cases hlt : bp < ap
        · simp [matchLoop, hlt] at ht
        · rcases hr : matchLevel (bq.length + aq.length) bq aq with
            ⟨ts, bq2, aq2, remB, remA⟩
          rw [matchLoop_succ_cross hlt hr] at ht
          simp only [List.mem_append] at ht
          have hEa : aq.map entryOf = remA.map entryOf ++ aq2.map entryOf := by
            have := (matchLevel_entries (bq.length + aq.length) bq aq).2
            rw [hr] at this
            exact this
          rcases ht with ht | ht
          · have := matchLevel_trades (bq.length + aq.length) bq aq t
              (by rw [hr]; exact ht)
            obtain ⟨hq, hp, a, ha, hid, hprice⟩ := this
            refine ⟨hq, hp, entryOf a, ?_, hid, hprice⟩
            simp only [Book.asks, ladderOrders_cons, List.map_append, List.mem_append]
            exact Or.inl (List.mem_map_of_mem _ ha)
          · obtain ⟨hq, hp, e, he, hid, hprice⟩ := ih _ t ht
            refine ⟨hq, hp, e, ?_, hid, hprice⟩
            simp only [Book.asks, ladderOrders_cons, List.map_append, List.mem_append]
            by_cases h4 : aq2.isEmpty
            · simp only [Book.asks, h4, if_true] at he
              exact Or.inr he
            · simp only [Book.asks, h4, Bool.false_eq_true, if_false,
                ladderOrders_cons, List.map_append, List.mem_append] at he
              rcases he with he | he
              · refine Or.inl ?_
                rw [hEa]
                exact List.mem_append_right _ he
              · exact Or.inr he

theorem fst_entryOf : (Prod.fst ∘ entryOf) = Order.orderId := rfl

/-- One outer matching iteration (crossing the two best levels, pruning
emptied levels, erasing popped ids from the index) preserves the
structural well-formedness of the book. -/
theorem step_WFS {bp ap : Price} {bq aq bq2 aq2 remB remA : List Order}
    {ts : List Trade} {brest arest : Ladder} {idx : List (OrderId × OrderEntry)}
    (hr : matchLevel (bq.length + aq.length) bq aq = (ts, bq2, aq2, remB, remA))
    (hwfs : WFS ⟨(bp, bq) :: brest, (ap, aq) :: arest, idx⟩) :
    WFS ⟨(if bq2.isEmpty then brest else (bp, bq2) :: brest),
         (if aq2.isEmpty then arest else (ap, aq2) :: arest),
         eraseAll (eraseAll idx remB) remA⟩ := by
  have hEb : bq.map entryOf = remB.map entryOf ++ bq2.map entryOf := by
    have := (matchLevel_entries (bq.length + aq.length) bq aq).1
    rw [hr] at this
    exact this
  have hEa : aq.map entryOf = remA.map entryOf ++ aq2.map entryOf := by
    have := (matchLevel_entries (bq.length + aq.length) bq aq).2
    rw [hr] at this
    exact this
  have hidx2 : eraseAll (eraseAll idx remB) remA =
      idx.filter (fun p => (remB ++ remA).all (fun o => o.orderId ≠ p.1)) := by
    rw [← eraseAll_append, eraseAll_eq_filter]
  -- Old entries, decomposed
  have hallOld : allOrders ⟨(bp, bq) :: brest, (ap, aq) :: arest, idx⟩ =
      (bq ++ ladderOrders brest) ++ (aq ++ ladderOrders arest) := by
    simp [allOrders]
  have hK : ((allOrders ⟨(bp, bq) :: brest, (ap, aq) :: arest, idx⟩).map
      entryOf).map Prod.fst =
      ((remB.map entryOf).map Prod.fst ++ (bq2.map entryOf).map Prod.fst ++
        ((ladderOrders brest).map entryOf).map Prod.fst) ++
      ((remA.map entryOf).map Prod.fst ++ (aq2.map entryOf).map Prod.fst ++
        ((ladderOrders arest).map entryOf).map Prod.fst) := by
    rw [hallOld]
    simp only [List.map_append, hEb, hEa, List.append_assoc]
  have hKnd : (((allOrders ⟨(bp, bq) :: brest, (ap, aq) :: arest, idx⟩).map
      entryOf).map Prod.fst).Nodup := by
    refine hwfs.idsNodup.perm ?_
    exact hwfs.indexPerm.map Prod.fst
  have hsplit : (((remB.map entryOf).map Prod.fst ++ (bq2.map entryOf).map Prod.fst ++
        ((ladderOrders brest).map entryOf).map Prod.fst) ++
      ((remA.map entryOf).map Prod.fst ++ (aq2.map entryOf).map Prod.fst ++
        ((ladderOrders arest).map entryOf).map Prod.fst)).Perm
      (((remB.map entryOf).map Prod.fst ++ (remA.map entryOf).map Prod.fst) ++
       ((bq2.map entryOf).map Prod.fst ++ ((ladderOrders brest).map entryOf).map Prod.fst ++
        (aq2.map entryOf).map Prod.fst ++ ((ladderOrders arest).map entryOf).map Prod.fst)) := by
    rw [← Multiset.coe_eq_coe]
    simp only [← Multiset.coe_add]
    abel
  have hdisj : List.Disjoint
      ((remB.map entryOf).map Prod.fst ++ (remA.map entryOf).map Prod.fst)
      ((bq2.map entryOf).map Prod.fst ++ ((ladderOrders brest).map entryOf).map Prod.fst ++
       (aq2.map entryOf).map Prod.fst ++ ((ladderOrders arest).map entryOf).map Prod.fst) := by
    refine List.disjoint_of_nodup_append ?_
    refine List.Nodup.perm ?_ hsplit
    rw [← hK]
    exact hKnd
  have hRids : (remB ++ remA).map Order.orderId =
      (remB.map entryOf).map Prod.fst ++ (remA.map entryOf).map Prod.fst := by
    simp only [List.map_append, List.map_map, fst_entryOf]
  -- membership helper: keys of a kept block avoid the removed ids
  have hkeep : ∀ (l : List Order),
      (∀ x ∈ (l.map entryOf).map Prod.fst,
        x ∈ (bq2.map entryOf).map Prod.fst ++ ((ladderOrders brest).map entryOf).map Prod.fst ++
            (aq2.map entryOf).map Prod.fst ++ ((ladderOrders arest).map entryOf).map Prod.fst) →
      (l.map entryOf).filter
        (fun p => (remB ++ remA).all (fun o => o.orderId ≠ p.1)) = l.map entryOf := by
    intro l hl
    refine filter_notRemoved_eq_self ?_
    intro p hp hmem
    rw [hRids] at hmem
    exact (List.disjoint_symm hdisj) (hl p.1 (List.mem_map_of_mem Prod.fst hp)) hmem
  have hremB : (remB.map entryOf).filter
      (fun p => (remB ++ remA).all (fun o => o.orderId ≠ p.1)) = [] := by
    refine filter_removed_eq_nil ?_
    intro p hp
    obtain ⟨o, ho, he⟩ := List.mem_map.mp hp
    refine List.mem_map.mpr ⟨o, List.mem_append_left _ ho, ?_⟩
    rw [← he]
    rfl
  have hremA : (remA.map entryOf).filter
      (fun p => (remB ++ remA).all (fun o => o.orderId ≠ p.1)) = [] := by
    refine filter_removed_eq_nil ?_
    intro p hp
    obtain ⟨o, ho, he⟩ := List.mem_map.mp hp
    refine List.mem_map.mpr ⟨o, List.mem_append_right _ ho, ?_⟩
    rw [← he]
    rfl
  have hbq2f : (bq2.map entryOf).filter
      (fun p => (remB ++ remA).all (fun o => o.orderId ≠ p.1)) = bq2.map entryOf := by
    refine hkeep bq2 ?_
    intro x hx
    simp only [List.append_assoc, List.mem_append]
    exact Or.inl hx
  have haq2f : (aq2.map entryOf).filter
      (fun p => (remB ++ remA).all (fun o => o.orderId ≠ p.1)) = aq2.map entryOf := by
    refine hkeep aq2 ?_
    intro x hx
    simp only [List.append_assoc, List.mem_append]
    exact Or.inr (Or.inr (Or.inl hx))
  have hAf : (((ladderOrders brest).map entryOf)).filter
      (fun p => (remB ++ remA).all (fun o => o.orderId ≠ p.1)) =
      (ladderOrders brest).map entryOf := by
    refine hkeep (ladderOrders brest) ?_
    intro x hx
    simp only [List.append_assoc, List.mem_append]
    exact Or.inr (Or.inl hx)
  have hCf : (((ladderOrders arest).map entryOf)).filter
      (fun p => (remB ++ remA).all (fun o => o.orderId ≠ p.1)) =
      (ladderOrders arest).map entryOf := by
    refine hkeep (ladderOrders arest) ?_
    intro x hx
    simp only [List.append_assoc, List.mem_append]
    exact Or.inr (Or.inr (Or.inr hx))
  -- transport of per-order facts from the old head queues to the survivors
  have htransB := @entries_transport bq bq2
    (fun e he => by rw [hEb]; exact List.mem_append_right _ he)
  have htransA := @entries_transport aq aq2
    (fun e he => by rw [hEa]; exact List.mem_append_right _ he)
  have hheadB := hwfs.bidsLevel (bp, bq) (List.mem_cons_self _ _)
  have hheadA := hwfs.asksLevel (ap, aq) (List.mem_cons_self _ _)
  have hposIn : (∀ o ∈ bq, 0 < o.remainingQuantity) ∧
      (∀ o ∈ aq, 0 < o.remainingQuantity) := by
    constructor
    · intro o ho
      refine hwfs.posRem o ?_
      rw [hallOld]
      exact List.mem_append_left _ (List.mem_append_left _ ho)
    · intro o ho
      refine hwfs.posRem o ?_
      rw [hallOld]
      exact List.mem_append_right _ (List.mem_append_left _ ho)
  have hposB : ∀ o ∈ bq2, 0 < o.remainingQuantity := by
    have := matchLevel_pos (bq.length + aq.length) bq aq hposIn.1 hposIn.2
    rw [hr] at this
    exact this.1
  have hposA : ∀ o ∈ aq2, 0 < o.remainingQuantity := by
    have := matchLevel_pos (bq.length + aq.length) bq aq hposIn.1 hposIn.2
    rw [hr] at this
    exact this.2
  refine ⟨?_, ?_, ?_, ?_, ?_, ?_, ?_, ?_, ?_, ?_⟩
  -- bidsSorted
  · by_cases h4 : bq2.isEmpty
    · simp only [Book.bids, h4, if_true]
      exact (List.pairwise_cons.mp hwfs.bidsSorted).2
    · simp only [Book.bids, h4, Bool.false_eq_true, if_false]
      exact hwfs.bidsSorted
  -- asksSorted
  · by_cases h4 : aq2.isEmpty
    · simp only [Book.asks, h4, if_true]
      exact (List.pairwise_cons.mp hwfs.asksSorted).2
    · simp only [Book.asks, h4, Bool.false_eq_true, if_false]
      exact hwfs.asksSorted
  -- bidsNE
  · by_cases h4 : bq2.isEmpty
    · simp only [Book.bids, h4, if_true]
      intro pl hpl
      exact hwfs.bidsNE pl (List.mem_cons_of_mem _ hpl)
    · simp only [Book.bids, h4, Bool.false_eq_true, if_false]
      intro pl hpl
      rcases List.mem_cons.mp hpl with h5 | h5
      · subst h5
        exact fun hc => h4 (List.isEmpty_iff.mpr hc)
      · exact hwfs.bidsNE pl (List.mem_cons_of_mem _ h5)
  -- asksNE
  · by_cases h4 : aq2.isEmpty
    · simp only [Book.asks, h4, if_true]
      intro pl hpl
      exact hwfs.asksNE pl (List.mem_cons_of_mem _ hpl)
    · simp only [Book.asks, h4, Bool.false_eq_true, if_false]
      intro pl hpl
      rcases List.mem_cons.mp hpl with h5 | h5
      · subst h5
        exact fun hc => h4 (List.isEmpty_iff.mpr hc)
      · exact hwfs.asksNE pl (List.mem_cons_of_mem _ h5)
  -- bidsLevel
  · by_cases h4 : bq2.isEmpty
    · simp only [Book.bids, h4, if_true]
      intro pl hpl
      exact hwfs.bidsLevel pl (List.mem_cons_of_mem _ hpl)
    · simp only [Book.bids, h4, Bool.false_eq_true, if_false]
      intro pl hpl
      rcases List.mem_cons.mp hpl with h5 | h5
      · subst h5
        intro o ho
        obtain ⟨o0, ho0, hid, hside, hprice, htype⟩ := htransB o ho
        have := hheadB o0 ho0
        exact ⟨hside ▸ this.1, hprice ▸ this.2⟩
      · exact hwfs.bidsLevel pl (List.mem_cons_of_mem _ h5)
  -- asksLevel
  · by_cases h4 : aq2.isEmpty
    · simp only [Book.asks, h4, if_true]
      intro pl hpl
      exact hwfs.asksLevel pl (List.mem_cons_of_mem _ hpl)
    · simp only [Book.asks, h4, Bool.false_eq_true, if_false]
      intro pl hpl
      rcases List.mem_cons.mp hpl with h5 | h5
      · subst h5
        intro o ho
        obtain ⟨o0, ho0, hid, hside, hprice, htype⟩ := htransA o ho
        have := hheadA o0 ho0
        exact ⟨hside ▸ this.1, hprice ▸ this.2⟩
      · exact hwfs.asksLevel pl (List.mem_cons_of_mem _ h5)
  -- indexPerm
  · simp only [Book.orders]
    rw [hidx2]
    refine (hwfs.indexPerm.filter _).trans ?_
    have hfold : ((allOrders ⟨(bp, bq) :: brest, (ap, aq) :: arest, idx⟩).map
        entryOf).filter (fun p => (remB ++ remA).all (fun o => o.orderId ≠ p.1)) =
        bq2.map entryOf ++ (ladderOrders brest).map entryOf ++
        (aq2.map entryOf ++ (ladderOrders arest).map entryOf) := by
      rw [hallOld]
      simp only [List.map_append, hEb, hEa, List.filter_append]
      rw [hremB, hremA, hbq2f, haq2f, hAf, hCf]
      simp
    rw [hfold]
    have hnew : ∀ os : List (OrderId × OrderEntry),
        allOrders ⟨(if bq2.isEmpty then brest else (bp, bq2) :: brest),
        (if aq2.isEmpty then arest else (ap, aq2) :: arest), os⟩ =
        (bq2 ++ ladderOrders brest) ++ (aq2 ++ ladderOrders arest) := by
      intro os
      simp only [allOrders, Book.bids, Book.asks]
      by_cases h4 : bq2.isEmpty
      · have hb : bq2 = [] := List.isEmpty_iff.mp h4
        by_cases h5 : aq2.isEmpty
        · have ha : aq2 = [] := List.isEmpty_iff.mp h5
          simp [h4, h5, hb, ha]
        · simp [h4, h5, hb]
      · by_cases h5 : aq2.isEmpty
        · have ha : aq2 = [] := List.isEmpty_iff.mp h5
          simp [h4, h5, ha]
        · simp [h4, h5]
    rw [hnew]
    simp only [List.map_append, List.append_assoc]
    exact List.Perm.refl _
  -- idsNodup
  · simp only [Book.orders]
    rw [hidx2]
    refine hwfs.idsNodup.sublist ?_
    exact List.Sublist.map Prod.fst (List.filter_sublist idx)
  -- posRem
  · intro o ho
    have hnew : ∀ os : List (OrderId × OrderEntry),
        allOrders ⟨(if bq2.isEmpty then brest else (bp, bq2) :: brest),
        (if aq2.isEmpty then arest else (ap, aq2) :: arest), os⟩ =
        (bq2 ++ ladderOrders brest) ++ (aq2 ++ ladderOrders arest) := by
      intro os
      simp only [allOrders, Book.bids, Book.asks]
      by_cases h4 : bq2.isEmpty
      · have hb : bq2 = [] := List.isEmpty_iff.mp h4
        by_cases h5 : aq2.isEmpty
        · have ha : aq2 = [] := List.isEmpty_iff.mp h5
          simp [h4, h5, hb, ha]
        · simp [h4, h5, hb]
      · by_cases h5 : aq2.isEmpty
        · have ha : aq2 = [] := List.isEmpty_iff.mp h5
          simp [h4, h5, ha]
        · simp [h4, h5]
    rw [hnew] at ho
    rcases List.mem_append.mp ho with h5 | h5
    · rcases List.mem_append.mp h5 with h6 | h6
      · exact hposB o h6
      · refine hwfs.posRem o ?_
        rw [hallOld]
        exact List.mem_append_left _ (List.mem_append_right _ h6)
    · rcases List.mem_append.mp h5 with h6 | h6
      · exact hposA o h6
      · refine hwfs.posRem o ?_
        rw [hallOld]
        exact List.mem_append_right _ (List.mem_append_right _ h6)
  -- idsNZ
  · simp only [Book.orders]
    rw [hidx2]
    intro p hp
    exact hwfs.idsNZ p (List.mem_of_mem_filter hp)

theorem matchLoop_WFS : ∀ (fuel : Nat) (b : Book), WFS b → WFS (matchLoop fuel b).2 := by
  intro fuel
  induction fuel with
  | zero => intro b h; simpa [matchLoop] using h
  | succ fuel ih =>
    intro b h
    obtain ⟨bids, asks, idx⟩ := b
    rcases bids with _ | ⟨⟨bp, bq⟩, brest⟩
    · simpa [matchLoop] using h
    · rcases asks with _ | ⟨⟨ap, aq⟩, arest⟩
      · simpa [matchLoop] using h
      · by_cases hlt : bp < ap
        · simpa [matchLoop, hlt] using h
        · rcases hr : matchLevel (bq.length + aq.length) bq aq with
            ⟨ts, bq2, aq2, remB, remA⟩
          rw [matchLoop_succ_cross hlt hr]
          exact ih _ (step_WFS hr h)

/-- Shrinking the ladders (removing levels or orders) can only move the two
tops of book apart, so it preserves the non-crossed property. -/
theorem headsLT_mono {bids2 asks2 : Ladder} {b : Book}
    (hsub : List.Sublist (ladderKeys bids2) (ladderKeys b.bids))
    (hasub : List.Sublist (ladderKeys asks2) (ladderKeys b.asks))
    (hbs : (ladderKeys b.bids).Pairwise (· > ·))
    (has : (ladderKeys b.asks).Pairwise (· < ·))
    (h : headsLT b) (os : List (OrderId × OrderEntry)) :
    headsLT ⟨bids2, asks2, os⟩ := by
  intro bl hbl al hal
  simp only [Book.bids, Book.asks] at hbl hal
  rcases bids2 with _ | ⟨bl0, brest2⟩
  · simp at hbl
  rcases asks2 with _ | ⟨al0, arest2⟩
  · simp at hal
  simp only [List.head?_cons, Option.mem_def, Option.some.injEq] at hbl hal
  subst hbl; subst hal
  have hblmem : bl0.1 ∈ ladderKeys b.bids := by
    refine hsub.mem ?_
    obtain ⟨blp, bll⟩ := bl0
    simp [ladderKeys]
  have halmem : al0.1 ∈ ladderKeys b.asks := by
    refine hasub.mem ?_
    obtain ⟨alp, all2⟩ := al0
    simp [ladderKeys]
  rcases hbb : b.bids with _ | ⟨bh, brest⟩
  · rw [hbb] at hblmem; simp [ladderKeys] at hblmem
  rcases hba : b.asks with _ | ⟨ah, arest⟩
  · rw [hba] at halmem; simp [ladderKeys] at halmem
  rw [hbb] at hblmem hbs
  rw [hba] at halmem has
  obtain ⟨bhp, bhl⟩ := bh
  obtain ⟨ahp, ahl⟩ := ah
  have h1 : bl0.1 ≤ bhp :=
    le_head_of_sorted_gt (by simpa only [ladderKeys_cons] using hbs)
      (by simpa only [ladderKeys_cons] using hblmem)
  have h2 : ahp ≤ al0.1 :=
    ge_head_of_sorted_lt (by simpa only [ladderKeys_cons] using has)
      (by simpa only [ladderKeys_cons] using halmem)
  have h3 : bhp < ahp := by
    have := h (bhp, bhl) (by rw [hbb]; simp) (ahp, ahl) (by rw [hba]; simp)
    exact this
  exact lt_of_le_of_lt h1 (lt_of_lt_of_le h3 h2)

theorem filter_fst_ne_map_entryOf (l : List Order) (id : OrderId) :
    (l.map entryOf).filter (fun pr => pr.1 ≠ id) =
    (l.filter (fun o => o.orderId ≠ id)).map entryOf := by
  rw [List.map_filter]
  rfl

/-- `CancelOrderInternal` preserves full well-formedness. -/
theorem cancel_WF {b : Book} (h : WF b) (id : OrderId) :
    WF (cancelOrderInternal b id) := by
  obtain ⟨hwfs, hheads⟩ := h
  rcases hl : lookupIndex b.orders id with _ | e
  · simpa [cancelOrderInternal, hl] using ⟨hwfs, hheads⟩
  · -- the entry is backed by a unique ladder order with matching fields
    have hmem : (id, e) ∈ b.orders := lookupIndex_mem hl
    have hEmem : (id, e) ∈ (allOrders b).map entryOf := hwfs.indexPerm.mem_iff.mp hmem
    obtain ⟨ostar, hostar, heq⟩ := List.mem_map.mp hEmem
    have hostarId : ostar.orderId = id := congrArg Prod.fst heq
    have hostarSide : ostar.side = e.side := congrArg (fun q => q.2.side) heq
    have hostarPrice : ostar.price = e.price := congrArg (fun q => q.2.price) heq
    have hlidsNodup : ((allOrders b).map Order.orderId).Nodup := by
      have h1 : (b.orders.map Prod.fst).Perm
          (((allOrders b).map entryOf).map Prod.fst) := hwfs.indexPerm.map Prod.fst
      rw [List.map_map, fst_entryOf] at h1
      exact hwfs.idsNodup.perm h1
    have hinj := List.inj_on_of_nodup_map hlidsNodup
    have huniq : ∀ o ∈ allOrders b, o.orderId = id → o = ostar := by
      intro o ho hid2
      exact hinj ho hostar (by rw [hid2, hostarId])
    have hmemBids : ∀ o ∈ ladderOrders b.bids, o ∈ allOrders b :=
      fun o ho => List.mem_append_left _ ho
    have hmemAsks : ∀ o ∈ ladderOrders b.asks, o ∈ allOrders b :=
      fun o ho => List.mem_append_right _ ho
    have hsideOfBids : ∀ o ∈ ladderOrders b.bids, o.side = Side.Buy := by
      intro o ho
      obtain ⟨pl2, hpl2, ho2⟩ : ∃ pl2 ∈ b.bids, o ∈ pl2.2 := by
        simp only [ladderOrders, List.mem_flatten, List.mem_map] at ho
        obtain ⟨l2, ⟨pl2, hpl2, hl2⟩, ho2⟩ := ho
        exact ⟨pl2, hpl2, hl2 ▸ ho2⟩
      exact (hwfs.bidsLevel pl2 hpl2 o ho2).1
    have hsideOfAsks : ∀ o ∈ ladderOrders b.asks, o.side = Side.Sell := by
      intro o ho
      obtain ⟨pl2, hpl2, ho2⟩ : ∃ pl2 ∈ b.asks, o ∈ pl2.2 := by
        simp only [ladderOrders, List.mem_flatten, List.mem_map] at ho
        obtain ⟨l2, ⟨pl2, hpl2, hl2⟩, ho2⟩ := ho
        exact ⟨pl2, hpl2, hl2 ▸ ho2⟩
      exact (hwfs.asksLevel pl2 hpl2 o ho2).1
    cases hside : e.side with
    | Buy =>
      have hnb : cancelOrderInternal b id =
          ⟨removeFromLadder b.bids e.price id, b.asks, eraseIndex b.orders id⟩ := by
        simp [cancelOrderInternal, hl, hside]
      rw [hnb]
      have hocc : ∀ pl ∈ b.bids, ∀ o ∈ pl.2, o.orderId = id → pl.1 = e.price := by
        intro pl hpl o ho hid2
        have homem : o ∈ allOrders b := by
          refine List.mem_append_left _ ?_
          simp only [ladderOrders, List.mem_flatten, List.mem_map]
          exact ⟨pl.2, ⟨pl, hpl, rfl⟩, ho⟩
        have hoe : o = ostar := huniq o homem hid2
        have := (hwfs.bidsLevel pl hpl o ho).2
        rw [hoe, hostarPrice] at this
        exact this.symm
      have hkeysNodup : (ladderKeys b.bids).Nodup :=
        hwfs.bidsSorted.imp (fun hab => ne_of_gt hab)
      have hndBids : ((ladderOrders b.bids).map Order.orderId).Nodup := by
        have := hlidsNodup
        simp only [allOrders, List.map_append] at this
        exact this.of_append_left
      have hfilterBids : ladderOrders (removeFromLadder b.bids e.price id) =
          (ladderOrders b.bids).filter (fun o => o.orderId ≠ id) :=
        removeFromLadder_orders_eq_filter hkeysNodup hndBids hocc
      have hasksKeep : (ladderOrders b.asks).filter (fun o => o.orderId ≠ id) =
          ladderOrders b.asks := by
        refine List.filter_eq_self.mpr ?_
        intro o ho
        simp only [decide_eq_true_eq]
        intro hid2
        have := huniq o (hmemAsks o ho) hid2
        have hs := hsideOfAsks o ho
        rw [this, hostarSide, hside] at hs
        exact Side.noConfusion hs
      refine ⟨⟨?_, ?_, ?_, ?_, ?_, ?_, ?_, ?_, ?_, ?_⟩, ?_⟩
      · exact hwfs.bidsSorted.sublist (removeFromLadder_keys_sublist _ _ _)
      · exact hwfs.asksSorted
      · exact removeFromLadder_NE hwfs.bidsNE
      · exact hwfs.asksNE
      · exact @removeFromLadder_forall (fun o k => o.side = Side.Buy ∧ o.price = k)
          b.bids e.price id hwfs.bidsLevel
      · exact hwfs.asksLevel
      · simp only [Book.orders, eraseIndex]
        refine (hwfs.indexPerm.filter _).trans ?_
        have hE : ((allOrders b).map entryOf).filter (fun pr => pr.1 ≠ id) =
            (allOrders ⟨removeFromLadder b.bids e.price id, b.asks,
              eraseIndex b.orders id⟩).map entryOf := by
          simp only [allOrders, Book.bids, Book.asks, List.map_append,
            List.filter_append]
          rw [filter_fst_ne_map_entryOf, filter_fst_ne_map_entryOf]
          rw [hasksKeep, ← hfilterBids]
        rw [hE]
        exact List.Perm.refl _
      · exact hwfs.idsNodup.sublist (List.Sublist.map Prod.fst (List.filter_sublist _))
      · intro o ho
        simp only [allOrders, Book.bids, Book.asks] at ho
        rcases List.mem_append.mp ho with h2 | h2
        · exact hwfs.posRem o
            (hmemBids o ((removeFromLadder_orders_sublist _ _ _).mem h2))
        · exact hwfs.posRem o (hmemAsks o h2)
      · intro p hp
        exact hwfs.idsNZ p (List.mem_of_mem_filter hp)
      · exact headsLT_mono (removeFromLadder_keys_sublist _ _ _)
          (List.Sublist.refl _) hwfs.bidsSorted hwfs.asksSorted hheads _
    | Sell =>
      have hnb : cancelOrderInternal b id =
          ⟨b.bids, removeFromLadder b.asks e.price id, eraseIndex b.orders id⟩ := by
        simp [cancelOrderInternal, hl, hside]
      rw [hnb]
      have hocc : ∀ pl ∈ b.asks, ∀ o ∈ pl.2, o.orderId = id → pl.1 = e.price := by
        intro pl hpl o ho hid2
        have homem : o ∈ allOrders b := by
          refine List.mem_append_right _ ?_
          simp only [ladderOrders, List.mem_flatten, List.mem_map]
          exact ⟨pl.2, ⟨pl, hpl, rfl⟩, ho⟩
        have hoe : o = ostar := huniq o homem hid2
        have := (hwfs.asksLevel pl hpl o ho).2
        rw [hoe, hostarPrice] at this
        exact this.symm
      have hkeysNodup : (ladderKeys b.asks).Nodup :=
        hwfs.asksSorted.imp (fun hab => ne_of_lt hab)
      have hndAsks : ((ladderOrders b.asks).map Order.orderId).Nodup := by
        have := hlidsNodup
        simp only [allOrders, List.map_append] at this
        exact this.of_append_right
      have hfilterAsks : ladderOrders (removeFromLadder b.asks e.price id) =
          (ladderOrders b.asks).filter (fun o => o.orderId ≠ id) :=
        removeFromLadder_orders_eq_filter hkeysNodup hndAsks hocc
      have hbidsKeep : (ladderOrders b.bids).filter (fun o => o.orderId ≠ id) =
          ladderOrders b.bids := by
        refine List.filter_eq_self.mpr ?_
        intro o ho
        simp only [decide_eq_true_eq]
        intro hid2
        have := huniq o (hmemBids o ho) hid2
        have hs := hsideOfBids o ho
        rw [this, hostarSide, hside] at hs
        exact Side.noConfusion hs
      refine ⟨⟨?_, ?_, ?_, ?_, ?_, ?_, ?_, ?_, ?_, ?_⟩, ?_⟩
      · exact hwfs.bidsSorted
      · exact hwfs.asksSorted.sublist (removeFromLadder_keys_sublist _ _ _)
      · exact hwfs.bidsNE
      · exact removeFromLadder_NE hwfs.asksNE
      · exact hwfs.bidsLevel
      · exact @removeFromLadder_forall (fun o k => o.side = Side.Sell ∧ o.price = k)
          b.asks e.price id hwfs.asksLevel
      · simp only [Book.orders, eraseIndex]
        refine (hwfs.indexPerm.filter _).trans ?_
        have hE : ((allOrders b).map entryOf).filter (fun pr => pr.1 ≠ id) =
            (allOrders ⟨b.bids, removeFromLadder b.asks e.price id,
              eraseIndex b.orders id⟩).map entryOf := by
          simp only [allOrders, Book.bids, Book.asks, List.map_append,
            List.filter_append]
          rw [filter_fst_ne_map_entryOf, filter_fst_ne_map_entryOf]
          rw [hbidsKeep, ← hfilterAsks]
        rw [hE]
        exact List.Perm.refl _
      · exact hwfs.idsNodup.sublist (List.Sublist.map Prod.fst (List.filter_sublist _))
      · intro o ho
        simp only [allOrders, Book.bids, Book.asks] at ho
        rcases List.mem_append.mp ho with h2 | h2
        · exact hwfs.posRem o (hmemBids o h2)
        · exact hwfs.posRem o
            (hmemAsks o ((removeFromLadder_orders_sublist _ _ _).mem h2))
      · intro p hp
        exact hwfs.idsNZ p (List.mem_of_mem_filter hp)
      · exact headsLT_mono (List.Sublist.refl _)
          (removeFromLadder_keys_sublist _ _ _) hwfs.bidsSorted hwfs.asksSorted
          hheads _

theorem foldl_cancel_WF : ∀ (ids : List OrderId) {b : Book}, WF b →
    WF (ids.foldl cancelOrderInternal b) := by
  intro ids
  induction ids with
  | nil => intro b h; exact h
  | cons i rest ih =>
    intro b h
    exact ih (cancel_WF h i)

theorem matchOrders_WF {b : Book} (h : WFS b) : WF (matchOrders b).2 := by
  have h1 : WFS (matchLoop (b.bids.length + b.asks.length + 1) b).2 :=
    matchLoop_WFS _ _ h
  have h2 : headsLT (matchLoop (b.bids.length + b.asks.length + 1) b).2 :=
    matchLoop_exit _ _ (Nat.lt_succ_self _)
  simp only [matchOrders]
  exact foldl_cancel_WF _ ⟨h1, h2⟩

theorem placeOrder_WFS {b : Book} {o : Order} (h : WF b)
    (hid : o.orderId ≠ 0) (hrem : o.remainingQuantity ≠ 0)
    (hfresh : lookupIndex b.orders o.orderId = none) :
    WFS (placeOrder b o) := by
  obtain ⟨hwfs, hheads⟩ := h
  have hkeyfresh : o.orderId ∉ b.orders.map Prod.fst := lookupIndex_eq_none.mp hfresh
  have hidsNodup2 : ((b.orders ++ [entryOf o]).map Prod.fst).Nodup := by
    rw [List.map_append, List.nodup_append]
    refine ⟨hwfs.idsNodup, by simp, ?_⟩
    intro x hx hmem
    simp only [List.map_cons, List.map_nil, List.mem_singleton] at hmem
    have hx2 : x = o.orderId := hmem
    exact hkeyfresh (hx2 ▸ hx)
  have hidsNZ2 : ∀ p ∈ b.orders ++ [entryOf o], p.1 ≠ 0 := by
    intro p hp
    rcases List.mem_append.mp hp with h2 | h2
    · exact hwfs.idsNZ p h2
    · simp only [List.mem_singleton] at h2
      subst h2
      exact hid
  cases hs : o.side with
  | Buy =>
    have hnb : placeOrder b o =
        ⟨insertBid o.price o b.bids, b.asks, b.orders ++ [entryOf o]⟩ := by
      simp [placeOrder, hs]
    rw [hnb]
    refine ⟨?_, ?_, ?_, ?_, ?_, ?_, ?_, ?_, ?_, ?_⟩
    · exact insertBid_sorted hwfs.bidsSorted
    · exact hwfs.asksSorted
    · exact insertBid_NE hwfs.bidsNE
    · exact hwfs.asksNE
    · exact @insertBid_forall (fun o2 k => o2.side = Side.Buy ∧ o2.price = k)
        o.price o b.bids hwfs.bidsLevel ⟨hs, rfl⟩
    · exact hwfs.asksLevel
    · have hstep : ((allOrders ⟨insertBid o.price o b.bids, b.asks,
          b.orders ++ [entryOf o]⟩).map entryOf).Perm
          (entryOf o :: (allOrders b).map entryOf) := by
        simp only [allOrders, Book.bids, Book.asks, List.map_append]
        refine ((insertBid_orders_perm o.price o b.bids).map entryOf).append_right
          ((ladderOrders b.asks).map entryOf) |>.trans ?_
        simp only [List.map_cons, List.cons_append]
        exact List.Perm.refl _
      have hp1 : (b.orders ++ [entryOf o]).Perm (entryOf o :: b.orders) :=
        List.perm_append_singleton _ _
      have hp2 : (entryOf o :: b.orders).Perm
          (entryOf o :: (allOrders b).map entryOf) := hwfs.indexPerm.cons _
      exact ((hp1.trans hp2).trans hstep.symm)
    · exact hidsNodup2
    · intro o2 ho2
      simp only [allOrders, Book.bids, Book.asks] at ho2
      rcases List.mem_append.mp ho2 with h2 | h2
      · have := (insertBid_orders_perm o.price o b.bids).mem_iff.mp h2
        rcases List.mem_cons.mp this with h3 | h3
        · subst h3
          exact Nat.pos_of_ne_zero hrem
        · exact hwfs.posRem o2 (List.mem_append_left _ h3)
      · exact hwfs.posRem o2 (List.mem_append_right _ h2)
    · exact hidsNZ2
  | Sell =>
    have hnb : placeOrder b o =
        ⟨b.bids, insertAsk o.price o b.asks, b.orders ++ [entryOf o]⟩ := by
      simp [placeOrder, hs]
    rw [hnb]
    refine ⟨?_, ?_, ?_, ?_, ?_, ?_, ?_, ?_, ?_, ?_⟩
    · exact hwfs.bidsSorted
    · exact insertAsk_sorted hwfs.asksSorted
    · exact hwfs.bidsNE
    · exact insertAsk_NE hwfs.asksNE
    · exact hwfs.bidsLevel
    · exact @insertAsk_forall (fun o2 k => o2.side = Side.Sell ∧ o2.price = k)
        o.price o b.asks hwfs.asksLevel ⟨hs, rfl⟩
    · have hstep : ((allOrders ⟨b.bids, insertAsk o.price o b.asks,
          b.orders ++ [entryOf o]⟩).map entryOf).Perm
          (entryOf o :: (allOrders b).map entryOf) := by
        simp only [allOrders, Book.bids, Book.asks, List.map_append]
        refine (((insertAsk_orders_perm o.price o b.asks).map entryOf).append_left
          ((ladderOrders b.bids).map entryOf)).trans ?_
        simp only [List.map_cons]
        exact List.perm_middle
      have hp1 : (b.orders ++ [entryOf o]).Perm (entryOf o :: b.orders) :=
        List.perm_append_singleton _ _
      have hp2 : (entryOf o :: b.orders).Perm
          (entryOf o :: (allOrders b).map entryOf) := hwfs.indexPerm.cons _
      exact ((hp1.trans hp2).trans hstep.symm)
    · exact hidsNodup2
    · intro o2 ho2
      simp only [allOrders, Book.bids, Book.asks] at ho2
      rcases List.mem_append.mp ho2 with h2 | h2
      · exact hwfs.posRem o2 (List.mem_append_left _ h2)
      · have := (insertAsk_orders_perm o.price o b.asks).mem_iff.mp h2
        rcases List.mem_cons.mp this with h3 | h3
        · subst h3
          exact Nat.pos_of_ne_zero hrem
        · exact hwfs.posRem o2 (List.mem_append_right _ h3)
    · exact hidsNZ2

theorem addOrder_WF {b : Book} (h : WF b) (op : Option Order) :
    WF (addOrder b op).2 := by
  rcases op with _ | o
  · simpa [addOrder] using h
  · by_cases hrem : o.remainingQuantity = 0
    · simpa [addOrder, hrem] using h
    · by_cases hid : o.orderId = 0
      · simpa [addOrder, hrem, hid] using h
      · by_cases hdup : (lookupIndex b.orders o.orderId).isSome
        · simpa [addOrder, hrem, hid, hdup] using h
        · by_cases hioc : o.orderType = OrderType.ImmediateOrCancel ∧
              ¬ canMatch b o.side o.price
          · simpa [addOrder, hrem, hid, hdup, hioc] using h
          · by_cases hfok : o.orderType = OrderType.FillOrKill ∧
                ¬ canFillCompletely b o.side o.price o.remainingQuantity
            · simpa [addOrder, hrem, hid, hdup, hioc, hfok] using h
            · have hioc2 : ¬(o.orderType = OrderType.ImmediateOrCancel ∧
                  canMatch b o.side o.price = false) := by
                simpa [Bool.not_eq_true] using hioc
              have hfok2 : ¬(o.orderType = OrderType.FillOrKill ∧
                  canFillCompletely b o.side o.price o.remainingQuantity = false) := by
                simpa [Bool.not_eq_true] using hfok
              have hacc : addOrder b (some o) = matchOrders (placeOrder b o) := by
                simp [addOrder, hrem, hid, hdup, hioc2, hfok2]
              rw [hacc]
              exact matchOrders_WF (placeOrder_WFS h hid hrem
                (Option.not_isSome_iff_eq_none.mp hdup))

theorem matchOrder_WF {b : Book} (h : WF b) (m : OrderModify) :
    WF (matchOrder b m).2 := by
  rcases hl : lookupIndex b.orders m.orderId with _ | e
  · simpa [matchOrder, hl] using h
  · rcases hto : m.toOrder e.orderType with _ | o
    · have : (matchOrder b m).2 = cancelOrderInternal b m.orderId := by
        simp [matchOrder, hl, hto]
      rw [this]
      exact cancel_WF h _
    · have : (matchOrder b m).2 =
          (addOrder (cancelOrderInternal b m.orderId) (some o)).2 := by
        simp [matchOrder, hl, hto]
      rw [this]
      exact addOrder_WF (cancel_WF h _) _

theorem emptyBook_WF : WF emptyBook := by
  refine ⟨⟨?_, ?_, ?_, ?_, ?_, ?_, ?_, ?_, ?_, ?_⟩, ?_⟩ <;>
    simp [emptyBook, ladderKeys, allOrders, headsLT, ladderOrders]

/-- Every book reachable through the public surface is well-formed. -/
theorem reachable_WF : ∀ {b : Book}, Reachable b → WF b := by
  intro b h
  induction h with
  | empty => exact emptyBook_WF
  | add op hb ih => exact addOrder_WF ih op
  | cancel id hb ih => exact cancel_WF ih id
  | modify m hb ih => exact matchOrder_WF ih m
  | clearBook hb ih => exact emptyBook_WF

/-! ### Exact characterisation of CanFillCompletely in the absence of
32-bit overflow -/

theorem accumQueue_exact : ∀ (l : List Order) (qty avail : Quantity),
    avail + (l.map Order.remainingQuantity).sum < qmod →
    avail < qty →
    accumQueue l qty avail =
      (if qty ≤ avail + (l.map Order.remainingQuantity).sum then none
       else some (avail + (l.map Order.remainingQuantity).sum)) := by
  intro l
  induction l with
  | nil =>
    intro qty avail hov hlt
    simp only [accumQueue, List.map_nil, List.sum_nil, Nat.add_zero]
    rw [if_neg (not_le.mpr hlt)]
  | cons o rest ih =>
    intro qty avail hov hlt
    simp only [List.map_cons, List.sum_cons] at hov
    have hle : avail + o.remainingQuantity < qmod := by
      refine lt_of_le_of_lt ?_ hov
      rw [← Nat.add_assoc]
      exact Nat.le_add_right _ _
    have hmod : (avail + o.remainingQuantity) % qmod = avail + o.remainingQuantity :=
      Nat.mod_eq_of_lt hle
    simp only [accumQueue, hmod, List.map_cons, List.sum_cons]
    by_cases hq : qty ≤ avail + o.remainingQuantity
    · rw [if_pos hq, if_pos ?_]
      rw [← Nat.add_assoc]
      exact le_trans hq (Nat.le_add_right _ _)
    · rw [if_neg hq]
      rw [ih qty (avail + o.remainingQuantity) (by rw [Nat.add_assoc]; exact hov)
        (not_le.mp hq |> fun h => h)]
      rw [Nat.add_assoc]

theorem canFillLoop_exact (cont : Price → Bool) : ∀ (LS : Ladder)
    (qty avail : Quantity), avail < qty →
    avail + ((ladderOrders (LS.takeWhile (fun pl => cont pl.1))).map
      Order.remainingQuantity).sum < qmod →
    (canFillLoop cont LS qty avail = true ↔
      qty ≤ avail + ((ladderOrders (LS.takeWhile (fun pl => cont pl.1))).map
        Order.remainingQuantity).sum) := by
  intro LS
  induction LS with
  | nil =>
    intro qty avail hlt hov
    simp only [canFillLoop, List.takeWhile_nil, ladderOrders_nil, List.map_nil,
      List.sum_nil, Nat.add_zero]
    exact iff_of_false (by simp) (not_le.mpr hlt)
  | cons hd rest ih =>
    intro qty avail hlt hov
    obtain ⟨p, l⟩ := hd
    by_cases hc : cont p
    · have htw : ((p, l) :: rest).takeWhile (fun pl => cont pl.1) =
          (p, l) :: rest.takeWhile (fun pl => cont pl.1) := by
        simp [List.takeWhile_cons, hc]
      rw [htw] at hov
      simp only [ladderOrders_cons, List.map_append, List.sum_append] at hov
      have hovl : avail + (l.map Order.remainingQuantity).sum < qmod := by
        refine lt_of_le_of_lt ?_ hov
        rw [← Nat.add_assoc]
        exact Nat.le_add_right _ _
      have hacc := accumQueue_exact l qty avail hovl hlt
      rw [htw]
      simp only [canFillLoop, hc, if_true, ladderOrders_cons, List.map_append,
        List.sum_append]
      by_cases hq : qty ≤ avail + (l.map Order.remainingQuantity).sum
      · rw [hacc, if_pos hq]
        refine iff_of_true rfl ?_
        rw [← Nat.add_assoc]
        exact le_trans hq (Nat.le_add_right _ _)
      · rw [hacc, if_neg hq]
        have := ih qty (avail + (l.map Order.remainingQuantity).sum)
          (not_le.mp hq) (by rw [Nat.add_assoc]; exact hov)
        rw [this, Nat.add_assoc]
    · have htw : ((p, l) :: rest).takeWhile (fun pl => cont pl.1) = [] := by
        simp [List.takeWhile_cons, hc]
      rw [htw]
      simp only [canFillLoop, hc, ladderOrders_nil, List.map_nil, List.sum_nil,
        Nat.add_zero]
      exact iff_of_false (by simp) (not_le.mpr hlt)

theorem takeWhile_eq_filter_le {p : Price} : ∀ (LS : Ladder),
    (ladderKeys LS).Pairwise (· < ·) →
    LS.takeWhile (fun pl => decide (pl.1 ≤ p)) =
      LS.filter (fun pl => decide (pl.1 ≤ p)) := by
  intro LS
  induction LS with
  | nil => intro h; rfl
  | cons hd rest ih =>
    intro h
    obtain ⟨q, l⟩ := hd
    simp only [ladderKeys_cons, List.pairwise_cons] at h
    by_cases hq : q ≤ p
    · simp only [List.takeWhile_cons, List.filter_cons, hq, decide_True, if_true]
      rw [ih h.2]
    · simp only [List.takeWhile_cons, List.filter_cons, hq, decide_False,
        Bool.false_eq_true, if_false]
      refine (List.filter_eq_nil_iff.mpr ?_).symm
      intro pl hpl
      simp only [decide_eq_true_eq]
      intro hle
      have : q < pl.1 := h.1 pl.1 (List.mem_map_of_mem Prod.fst hpl)
      exact hq (le_of_lt (lt_of_lt_of_le this hle))

theorem takeWhile_eq_filter_ge {p : Price} : ∀ (LS : Ladder),
    (ladderKeys LS).Pairwise (· > ·) →
    LS.takeWhile (fun pl => decide (p ≤ pl.1)) =
      LS.filter (fun pl => decide (p ≤ pl.1)) := by
  intro LS
  induction LS with
  | nil => intro h; rfl
  | cons hd rest ih =>
    intro h
    obtain ⟨q, l⟩ := hd
    simp only [ladderKeys_cons, List.pairwise_cons] at h
    by_cases hq : p ≤ q
    · simp only [List.takeWhile_cons, List.filter_cons, hq, decide_True, if_true]
      rw [ih h.2]
    · simp only [List.takeWhile_cons, List.filter_cons, hq, decide_False,
        Bool.false_eq_true, if_false]
      refine (List.filter_eq_nil_iff.mpr ?_).symm
      intro pl hpl
      simp only [decide_eq_true_eq]
      intro hle
      have : pl.1 < q := h.1 pl.1 (List.mem_map_of_mem Prod.fst hpl)
      exact hq (le_of_lt (lt_of_le_of_lt hle this))

/-- `CanFillCompletely` agrees with the spec's exact cumulative-quantity
criterion whenever the exact crossable sum stays below `2^32`. -/
theorem canFill_iff_crossable {b : Book} {s : Side} {p : Price}
    {qty : Quantity} (hwfs : WFS b) (hqty : 0 < qty)
    (hov : crossableQuantity b s p < qmod) :
    (canFillCompletely b s p qty = true ↔ qty ≤ crossableQuantity b s p) := by
  cases s with
  | Buy =>
    have hcross : crossableQuantity b Side.Buy p =
        ((ladderOrders (b.asks.takeWhile (fun pl => decide (pl.1 ≤ p)))).map
          Order.remainingQuantity).sum := by
      rw [crossableQuantity, takeWhile_eq_filter_le b.asks hwfs.asksSorted]
    rw [hcross] at hov ⊢
    have := canFillLoop_exact (fun ap => decide (ap ≤ p)) b.asks qty 0 hqty
      (by rw [Nat.zero_add]; exact hov)
    rw [canFillCompletely, this, Nat.zero_add]
  | Sell =>
    have hcross : crossableQuantity b Side.Sell p =
        ((ladderOrders (b.bids.takeWhile (fun pl => decide (p ≤ pl.1)))).map
          Order.remainingQuantity).sum := by
      rw [crossableQuantity, takeWhile_eq_filter_ge b.bids hwfs.bidsSorted]
    rw [hcross] at hov ⊢
    have := canFillLoop_exact (fun bp => decide (p ≤ bp)) b.bids qty 0 hqty
      (by rw [Nat.zero_add]; exact hov)
    rw [canFillCompletely, this, Nat.zero_add]

/-! ### Snapshot aggregation -/

theorem levelQuantity_fold : ∀ (l : List Order) (a : Quantity), a < qmod →
    l.foldl (fun s o => (s + o.remainingQuantity) % qmod) a =
      (a + (l.map Order.remainingQuantity).sum) % qmod := by
  intro l
  induction l with
  | nil =>
    intro a ha
    simp only [List.foldl_nil, List.map_nil, List.sum_nil, Nat.add_zero]
    exact (Nat.mod_eq_of_lt ha).symm
  | cons o rest ih =>
    intro a ha
    simp only [List.foldl_cons, List.map_cons, List.sum_cons]
    rw [ih _ (Nat.mod_lt _ (by decide))]
    rw [Nat.mod_add_mod, ← Nat.add_assoc]

/-- The 32-bit `std::accumulate` of `GetOrderInfos` computes the exact sum
reduced modulo `2^32`. -/
theorem levelQuantity_eq_sum_mod (l : List Order) :
    levelQuantity l = (l.map Order.remainingQuantity).sum % qmod := by
  rw [levelQuantity, levelQuantity_fold l 0 (by decide), Nat.zero_add]

/-! ### Level containment counting (for the index invariant claim) -/

theorem ladderOrders_append (L1 L2 : Ladder) :
    ladderOrders (L1 ++ L2) = ladderOrders L1 ++ ladderOrders L2 := by
  simp [ladderOrders]

theorem any_id_iff_count_pos {l : List Order} {id : OrderId} :
    l.any (fun o => o.orderId = id) = true ↔
      0 < (l.map Order.orderId).count id := by
  rw [List.any_eq_true, List.count_pos_iff]
  constructor
  · rintro ⟨o, ho, he⟩
    simp only [decide_eq_true_eq] at he
    exact List.mem_map.mpr ⟨o, ho, he⟩
  · intro h
    obtain ⟨o, ho, he⟩ := List.mem_map.mp h
    exact ⟨o, ho, by simp [he]⟩

theorem countP_levels_zero : ∀ (LS : Ladder) {id : OrderId},
    ((ladderOrders LS).map Order.orderId).count id = 0 →
    LS.countP (fun pl => pl.2.any (fun o => o.orderId = id)) = 0 := by
  intro LS
  induction LS with
  | nil => intro id h; rfl
  | cons hd rest ih =>
    intro id h
    obtain ⟨q, l⟩ := hd
    simp only [ladderOrders_cons, List.map_append, List.count_append] at h
    have hl : (l.map Order.orderId).count id = 0 := by omega
    have hrest : ((ladderOrders rest).map Order.orderId).count id = 0 := by omega
    rw [List.countP_cons]
    have hany : (l.any (fun o => o.orderId = id)) = false := by
      rw [← Bool.not_eq_true, any_id_iff_count_pos]
      omega
    simp only [hany, Bool.false_eq_true, if_false, Nat.add_zero]
    exact ih hrest

theorem countP_levels_one : ∀ (LS : Ladder) {id : OrderId},
    ((ladderOrders LS).map Order.orderId).count id = 1 →
    LS.countP (fun pl => pl.2.any (fun o => o.orderId = id)) = 1 := by
  intro LS
  induction LS with
  | nil => intro id h; simp [ladderOrders] at h
  | cons hd rest ih =>
    intro id h
    obtain ⟨q, l⟩ := hd
    simp only [ladderOrders_cons, List.map_append, List.count_append] at h
    rw [List.countP_cons]
    by_cases hl : (l.map Order.orderId).count id = 0
    · have hany : (l.any (fun o => o.orderId = id)) = false := by
        rw [← Bool.not_eq_true, any_id_iff_count_pos]
        omega
      simp only [hany, Bool.false_eq_true, if_false, Nat.add_zero]
      exact ih (by omega)
    · have hany : (l.any (fun o => o.orderId = id)) = true := by
        rw [any_id_iff_count_pos]
        omega
      have hrest : ((ladderOrders rest).map Order.orderId).count id = 0 := by omega
      rw [countP_levels_zero rest hrest]
      simp [hany]

/-- Trades produced by an `add`: legs agree and the ask leg's id and price
come from a resting ask order of the original book or from the added order
itself (order prices are immutable, so this is "the ask's price at the
moment of crossing"). -/
theorem addOrder_trades_src (b : Book) (o : Order) :
    ∀ t ∈ (addOrder b (some o)).1,
    t.bidTrade.quantity = t.askTrade.quantity ∧
    t.bidTrade.price = t.askTrade.price ∧
    ∃ a ∈ ladderOrders b.asks ++ [o], a.orderId = t.askTrade.orderId ∧
      a.price = t.askTrade.price := by
  intro t ht
  by_cases h1 : o.remainingQuantity = 0
  · simp [addOrder, h1] at ht
  by_cases h2 : o.orderId = 0
  · simp [addOrder, h1, h2] at ht
  by_cases h3 : (lookupIndex b.orders o.orderId).isSome
  · simp [addOrder, h1, h2, h3] at ht
  by_cases h4 : o.orderType = OrderType.ImmediateOrCancel ∧
      ¬ canMatch b o.side o.price
  · simp [addOrder, h1, h2, h3, h4] at ht
  by_cases h5 : o.orderType = OrderType.FillOrKill ∧
      ¬ canFillCompletely b o.side o.price o.remainingQuantity
  · simp only [addOrder, if_neg h1, if_neg h2, if_neg h3, if_neg h4,
      if_pos h5] at ht
    simp at ht
  · have hacc : addOrder b (some o) = matchOrders (placeOrder b o) := by
      simp only [addOrder, if_neg h1, if_neg h2, if_neg h3, if_neg h4, if_neg h5]
    rw [hacc] at ht
    have hm : (matchOrders (placeOrder b o)).1 =
        (matchLoop ((placeOrder b o).bids.length +
          (placeOrder b o).asks.length + 1) (placeOrder b o)).1 := by
      simp [matchOrders]
    rw [hm] at ht
    obtain ⟨hq, hp, e, he, hid, hprice⟩ := matchLoop_trades _ _ t ht
    refine ⟨hq, hp, ?_⟩
    cases hs : o.side with
    | Buy =>
      have hasks : (placeOrder b o).asks = b.asks := by simp [placeOrder, hs]
      rw [hasks] at he
      obtain ⟨a, ha, hae⟩ := List.mem_map.mp he
      refine ⟨a, List.mem_append_left _ ha, ?_, ?_⟩
      · rw [← hid, ← hae]; rfl
      · rw [← hprice, ← hae]; rfl
    | Sell =>
      have hasks : (placeOrder b o).asks = insertAsk o.price o b.asks := by
        simp [placeOrder, hs]
      rw [hasks] at he
      have := ((insertAsk_orders_perm o.price o b.asks).map entryOf).mem_iff.mp he
      simp only [List.map_cons, List.mem_cons] at this
      rcases this with h6 | h6
      · refine ⟨o, List.mem_append_right _ (List.mem_singleton.mpr rfl), ?_, ?_⟩
        · rw [← hid, h6]; rfl
        · rw [← hprice, h6]; rfl
      · obtain ⟨a, ha, hae⟩ := List.mem_map.mp h6
        refine ⟨a, List.mem_append_left _ ha, ?_, ?_⟩
        · rw [← hid, ← hae]; rfl
        · rw [← hprice, ← hae]; rfl

/-- C1: for every Trade emitted during a single `add` (or `modify`), the bid
leg and the ask leg carry the same quantity and the same execution price,
and that execution price equals the price of the ask-side order at the
moment of crossing (order prices are immutable, so that order is a resting
ask of the pre-call book or the added/replacement order itself). -/
theorem c1_trade_legs_and_ask_price (b : Book) :
    (∀ (o : Order), ∀ t ∈ (addOrder b (some o)).1,
      t.bidTrade.quantity = t.askTrade.quantity ∧
      t.bidTrade.price = t.askTrade.price ∧
      ∃ a ∈ ladderOrders b.asks ++ [o], a.orderId = t.askTrade.orderId ∧
        a.price = t.askTrade.price) ∧
    (∀ (m : OrderModify) (ts : List Trade), (matchOrder b m).1 = Except.ok ts →
      ∀ t ∈ ts, t.bidTrade.quantity = t.askTrade.quantity ∧
        t.bidTrade.price = t.askTrade.price) := by
  refine ⟨fun o => addOrder_trades_src b o, ?_⟩
  intro m ts hts t ht
  rcases hl : lookupIndex b.orders m.orderId with _ | e
  · simp only [matchOrder, hl] at hts
    obtain rfl : ([] : List Trade) = ts := Except.ok.inj hts
    simp at ht
  · rcases hto : m.toOrder e.orderType with _ | o2
    · simp only [matchOrder, hl, hto] at hts
      exact absurd hts (by simp)
    · simp only [matchOrder, hl, hto] at hts
      obtain rfl : (addOrder (cancelOrderInternal b m.orderId) (some o2)).1 = ts :=
        Except.ok.inj hts
      have := addOrder_trades_src (cancelOrderInternal b m.orderId) o2 t ht
      exact ⟨this.1, this.2.1⟩

/-- C1 witness: a concrete crossing add. -/
theorem c1_witness :
    (addOrder (addOrder emptyBook
        (mkOrder OrderType.GoodTillCancel 1 Side.Sell 100 10)).2
        (mkOrder OrderType.GoodTillCancel 2 Side.Buy 100 10)).1 =
      [⟨⟨2, 100, 10⟩, ⟨1, 100, 10⟩⟩] ∧
    (⟨⟨2, 100, 10⟩, ⟨1, 100, 10⟩⟩ : Trade).bidTrade.quantity =
      (⟨⟨2, 100, 10⟩, ⟨1, 100, 10⟩⟩ : Trade).askTrade.quantity ∧
    (⟨⟨2, 100, 10⟩, ⟨1, 100, 10⟩⟩ : Trade).bidTrade.price =
      (⟨⟨2, 100, 10⟩, ⟨1, 100, 10⟩⟩ : Trade).askTrade.price := by
  refine ⟨by decide, ?_, ?_⟩
  · have h := (c1_trade_legs_and_ask_price
      (addOrder emptyBook (mkOrder OrderType.GoodTillCancel 1 Side.Sell 100 10)).2).1
      ⟨OrderType.GoodTillCancel, 2, Side.Buy, 100, 10, 10⟩
      ⟨⟨2, 100, 10⟩, ⟨1, 100, 10⟩⟩ (by decide)
    exact h.1
  · have h := (c1_trade_legs_and_ask_price
      (addOrder emptyBook (mkOrder OrderType.GoodTillCancel 1 Side.Sell 100 10)).2).1
      ⟨OrderType.GoodTillCancel, 2, Side.Buy, 100, 10, 10⟩
      ⟨⟨2, 100, 10⟩, ⟨1, 100, 10⟩⟩ (by decide)
    exact h.2.1

/-- C2: every failing admission step makes `add` return an empty trade list
and leave the bid ladder, the ask ladder and the order index exactly as
they were. -/
theorem c2_admission_rejection_no_change (b : Book) (op : Option Order)
    (h : op = none ∨ ∃ o, op = some o ∧ (o.remainingQuantity = 0 ∨
      o.orderId = 0 ∨ (lookupIndex b.orders o.orderId).isSome = true ∨
      (o.orderType = OrderType.ImmediateOrCancel ∧
        canMatch b o.side o.price = false) ∨
      (o.orderType = OrderType.FillOrKill ∧
        canFillCompletely b o.side o.price o.remainingQuantity = false))) :
    (addOrder b op).1 = [] ∧ (addOrder b op).2.bids = b.bids ∧
    (addOrder b op).2.asks = b.asks ∧ (addOrder b op).2.orders = b.orders := by
  have hres : addOrder b op = ([], b) := by
    rcases h with h | ⟨o, rfl, hcase⟩
    · subst h; rfl
    · by_cases h1 : o.remainingQuantity = 0
      · simp [addOrder, h1]
      · by_cases h2 : o.orderId = 0
        · simp [addOrder, h1, h2]
        · by_cases h3 : (lookupIndex b.orders o.orderId).isSome
          · simp [addOrder, h1, h2, h3]
          · rcases hcase with hc | hc | hc | hc | hc
            · exact absurd hc h1
            · exact absurd hc h2
            · exact absurd hc h3
            · have h4 : o.orderType = OrderType.ImmediateOrCancel ∧
                  ¬ canMatch b o.side o.price := ⟨hc.1, by simp [hc.2]⟩
              simp [addOrder, h1, h2, h3, h4]
            · have hty : o.orderType = OrderType.FillOrKill := hc.1
              have h4 : ¬(o.orderType = OrderType.ImmediateOrCancel ∧
                  ¬ canMatch b o.side o.price) := by simp [hty]
              have h5 : o.orderType = OrderType.FillOrKill ∧
                  ¬ canFillCompletely b o.side o.price o.remainingQuantity :=
                ⟨hty, by simp [hc.2]⟩
              simp [addOrder, h1, h2, h3, h4, h5]
  rw [hres]
  exact ⟨rfl, rfl, rfl, rfl⟩

/-- C2 witness: a duplicate-id add against a one-order book. -/
theorem c2_witness :
    (addOrder oneBuyBook
      (some ⟨OrderType.GoodTillCancel, 1, Side.Sell, 95, 5, 5⟩)).1 = [] ∧
    (addOrder oneBuyBook
      (some ⟨OrderType.GoodTillCancel, 1, Side.Sell, 95, 5, 5⟩)).2.bids =
      oneBuyBook.bids ∧
    (addOrder oneBuyBook
      (some ⟨OrderType.GoodTillCancel, 1, Side.Sell, 95, 5, 5⟩)).2.asks =
      oneBuyBook.asks ∧
    (addOrder oneBuyBook
      (some ⟨OrderType.GoodTillCancel, 1, Side.Sell, 95, 5, 5⟩)).2.orders =
      oneBuyBook.orders :=
  c2_admission_rejection_no_change oneBuyBook
    (some ⟨OrderType.GoodTillCancel, 1, Side.Sell, 95, 5, 5⟩)
    (Or.inr ⟨⟨OrderType.GoodTillCancel, 1, Side.Sell, 95, 5, 5⟩, rfl,
      Or.inr (Or.inr (Or.inl (by decide)))⟩)

/-- C3: after every sequence of public operations, the order index contains
exactly the ids of orders present in exactly one ladder queue, and neither
ladder contains a price key whose queue is empty. -/
theorem c3_index_matches_ladders {b : Book} (h : Reachable b) :
    (∀ id : OrderId, id ∈ b.orders.map Prod.fst ↔
      (b.bids ++ b.asks).countP
        (fun pl => pl.2.any (fun o => o.orderId = id)) = 1) ∧
    (∀ pl ∈ b.bids, pl.2 ≠ []) ∧ (∀ pl ∈ b.asks, pl.2 ≠ []) := by
  obtain ⟨hwfs, hheads⟩ := reachable_WF h
  refine ⟨?_, hwfs.bidsNE, hwfs.asksNE⟩
  intro id
  have hperm : (b.orders.map Prod.fst).Perm ((allOrders b).map Order.orderId) := by
    have := hwfs.indexPerm.map Prod.fst
    rwa [List.map_map, fst_entryOf] at this
  have hall : (ladderOrders (b.bids ++ b.asks)).map Order.orderId =
      (allOrders b).map Order.orderId := by
    rw [ladderOrders_append]
    rfl
  constructor
  · intro hid
    have hcount : (b.orders.map Prod.fst).count id = 1 :=
      List.count_eq_one_of_mem hwfs.idsNodup hid
    have hcount2 : ((ladderOrders (b.bids ++ b.asks)).map Order.orderId).count id
        = 1 := by
      rw [hall, ← hperm.count_eq]
      exact hcount
    exact countP_levels_one _ hcount2
  · intro hcp
    have hpos : 0 < (b.bids ++ b.asks).countP
        (fun pl => pl.2.any (fun o => o.orderId = id)) := by
      rw [hcp]; exact Nat.one_pos
    obtain ⟨pl, hpl, hany⟩ := List.countP_pos.mp hpos
    have : 0 < (pl.2.map Order.orderId).count id := any_id_iff_count_pos.mp hany
    obtain ⟨o, ho, hoid⟩ := by
      have := List.count_pos_iff.mp this
      exact List.mem_map.mp this
    have homem : o ∈ ladderOrders (b.bids ++ b.asks) := by
      simp only [ladderOrders, List.mem_flatten, List.mem_map]
      exact ⟨pl.2, ⟨pl, hpl, rfl⟩, ho⟩
    have hidmem : id ∈ (allOrders b).map Order.orderId := by
      rw [← hall]
      exact List.mem_map.mpr ⟨o, homem, hoid⟩
    exact hperm.mem_iff.mpr hidmem

/-- C3 witness: the invariant instantiated at a concrete reachable book. -/
theorem c3_witness :
    (∀ id : OrderId, id ∈ oneBuyBook.orders.map Prod.fst ↔
      (oneBuyBook.bids ++ oneBuyBook.asks).countP
        (fun pl => pl.2.any (fun o => o.orderId = id)) = 1) ∧
    (∀ pl ∈ oneBuyBook.bids, pl.2 ≠ []) ∧
    (∀ pl ∈ oneBuyBook.asks, pl.2 ≠ []) :=
  c3_index_matches_ladders
    (Reachable.add (mkOrder OrderType.GoodTillCancel 1 Side.Buy 100 5)
      Reachable.empty)

/-- C4: after every public operation, whenever both ladders are non-empty
every bid price is strictly below every ask price — in particular the best
(maximum) bid is strictly below the best (minimum) ask: the book is never
crossed at rest. -/
theorem c4_never_crossed_at_rest {b : Book} (h : Reachable b)
    (hb : b.bids ≠ []) (ha : b.asks ≠ []) :
    ∀ p ∈ ladderKeys b.bids, ∀ q ∈ ladderKeys b.asks, p < q := by
  obtain ⟨hwfs, hheads⟩ := reachable_WF h
  intro p hp q hq
  rcases hbb : b.bids with _ | ⟨bh, brest⟩
  · exact absurd hbb hb
  rcases hba : b.asks with _ | ⟨ah, arest⟩
  · exact absurd hba ha
  obtain ⟨bhp, bhl⟩ := bh
  obtain ⟨ahp, ahl⟩ := ah
  have hbs := hwfs.bidsSorted
  have has := hwfs.asksSorted
  rw [hbb] at hbs hp
  rw [hba] at has hq
  have h1 : p ≤ bhp :=
    le_head_of_sorted_gt (by simpa only [ladderKeys_cons] using hbs)
      (by simpa only [ladderKeys_cons] using hp)
  have h2 : ahp ≤ q :=
    ge_head_of_sorted_lt (by simpa only [ladderKeys_cons] using has)
      (by simpa only [ladderKeys_cons] using hq)
  have h3 : bhp < ahp :=
    hheads (bhp, bhl) (by rw [hbb]; simp) (ahp, ahl) (by rw [hba]; simp)
  exact lt_of_le_of_lt h1 (lt_of_lt_of_le h3 h2)

/-- C4 witness: a concrete two-sided reachable book. -/
theorem c4_witness :
    (100 : Price) ∈ ladderKeys
      ((addOrder (addOrder emptyBook
        (mkOrder OrderType.GoodTillCancel 1 Side.Sell 101 10)).2
        (mkOrder OrderType.GoodTillCancel 2 Side.Buy 100 10)).2).bids ∧
    (100 : Price) < 101 := by
  refine ⟨by decide, ?_⟩
  exact c4_never_crossed_at_rest
    (Reachable.add (mkOrder OrderType.GoodTillCancel 2 Side.Buy 100 10)
      (Reachable.add (mkOrder OrderType.GoodTillCancel 1 Side.Sell 101 10)
        Reachable.empty))
    (by decide) (by decide) 100 (by decide) 101 (by decide)

/-- C5 counterexample: the claim's "admitted iff the cumulative remaining
quantity of crossable opposite orders is at least the remaining quantity"
fails: two resting sells of 3000000000 at price 100 have exact crossable
sum 6000000000 ≥ 4000000000, yet the 32-bit accumulator in
`CanFillCompletely` wraps and the FillOrKill buy is rejected (empty trades,
book unchanged). -/
theorem c5_counterexample :
    4000000000 ≤ crossableQuantity bigBook Side.Buy 100 ∧
    addOrder bigBook
      (some ⟨OrderType.FillOrKill, 3, Side.Buy, 100, 4000000000, 4000000000⟩) =
      ([], bigBook) := by
  exact ⟨by decide, by decide⟩

/-- C5 (amended): a FillOrKill order is admitted iff the 32-bit running
accumulation of `CanFillCompletely` reaches its remaining quantity; when the
exact crossable sum stays below `2^32` this coincides with the spec's
criterion (cumulative crossable quantity ≥ remaining quantity), and a
failing check makes `add` return an empty list and leave the book
untouched. -/
theorem c5_fok_admission (b : Book) (o : Order) (h : Reachable b)
    (hfok : o.orderType = OrderType.FillOrKill)
    (hrem : o.remainingQuantity ≠ 0)
    (hov : crossableQuantity b o.side o.price < qmod) :
    (canFillCompletely b o.side o.price o.remainingQuantity = true ↔
      o.remainingQuantity ≤ crossableQuantity b o.side o.price) ∧
    (canFillCompletely b o.side o.price o.remainingQuantity = false →
      addOrder b (some o) = ([], b)) := by
  obtain ⟨hwfs, _⟩ := reachable_WF h
  refine ⟨canFill_iff_crossable hwfs (Nat.pos_of_ne_zero hrem) hov, ?_⟩
  intro hcf
  by_cases h2 : o.orderId = 0
  · simp [addOrder, hrem, h2]
  by_cases h3 : (lookupIndex b.orders o.orderId).isSome
  · simp [addOrder, hrem, h2, h3]
  have h4 : ¬(o.orderType = OrderType.ImmediateOrCancel ∧
      ¬ canMatch b o.side o.price) := by simp [hfok]
  have h5 : o.orderType = OrderType.FillOrKill ∧
      ¬ canFillCompletely b o.side o.price o.remainingQuantity :=
    ⟨hfok, by simp [hcf]⟩
  simp [addOrder, hrem, h2, h3, h4, h5]

/-- C5 witness: a small book without overflow — FillOrKill for 15 against
resting quantity 10 is rejected, matching the exact criterion. -/
theorem c5_witness :
    (canFillCompletely
      (addOrder emptyBook (mkOrder OrderType.GoodTillCancel 1 Side.Sell 100 10)).2
      Side.Buy 100 15 = true ↔
      15 ≤ crossableQuantity
        (addOrder emptyBook (mkOrder OrderType.GoodTillCancel 1 Side.Sell 100 10)).2
        Side.Buy 100) ∧
    (canFillCompletely
      (addOrder emptyBook (mkOrder OrderType.GoodTillCancel 1 Side.Sell 100 10)).2
      Side.Buy 100 15 = false →
      addOrder
        (addOrder emptyBook (mkOrder OrderType.GoodTillCancel 1 Side.Sell 100 10)).2
        (some ⟨OrderType.FillOrKill, 2, Side.Buy, 100, 15, 15⟩) =
      ([], (addOrder emptyBook
        (mkOrder OrderType.GoodTillCancel 1 Side.Sell 100 10)).2)) :=
  c5_fok_admission _ ⟨OrderType.FillOrKill, 2, Side.Buy, 100, 15, 15⟩
    (Reachable.add (mkOrder OrderType.GoodTillCancel 1 Side.Sell 100 10)
      Reachable.empty)
    rfl (by decide) (by decide)

/-- C6: `modify` of a present id is exactly cancel followed by add of a
fresh order carrying the amendment's side, price and quantity and the
original order's type (`cancelThenReplace` is the spec's wording as a
definition); a fresh order is always appended at the tail of the queue at
its destination price level; `modify` of an absent id returns an empty
trade list and changes nothing. -/
theorem c6_modify_is_cancel_then_replace (b : Book) (m : OrderModify) :
    (lookupIndex b.orders m.orderId = none → matchOrder b m = (Except.ok [], b)) ∧
    (∀ e, lookupIndex b.orders m.orderId = some e →
      matchOrder b m = cancelThenReplace b m e.orderType) ∧
    (∀ (b1 : Book) (o : Order), o.side = Side.Buy →
      (ladderKeys b1.bids).Pairwise (· > ·) →
      queueAt (placeOrder b1 o).bids o.price = queueAt b1.bids o.price ++ [o]) ∧
    (∀ (b1 : Book) (o : Order), o.side = Side.Sell →
      (ladderKeys b1.asks).Pairwise (· < ·) →
      queueAt (placeOrder b1 o).asks o.price = queueAt b1.asks o.price ++ [o]) := by
  refine ⟨?_, ?_, ?_, ?_⟩
  · intro h
    simp [matchOrder, h]
  · intro e h
    simp only [matchOrder, cancelThenReplace, h]
  · intro b1 o hs hsort
    have : (placeOrder b1 o).bids = insertBid o.price o b1.bids := by
      simp [placeOrder, hs]
    rw [this]
    exact queueAt_insertBid_self hsort
  · intro b1 o hs hsort
    have : (placeOrder b1 o).asks = insertAsk o.price o b1.asks := by
      simp [placeOrder, hs]
    rw [this]
    exact queueAt_insertAsk_self hsort

/-- C6 witness: unknown id no-op, known id equals cancel-then-replace, and
tail placement, all at concrete inputs. -/
theorem c6_witness :
    matchOrder oneBuyBook ⟨9, Side.Buy, 101, 4⟩ = (Except.ok [], oneBuyBook) ∧
    matchOrder oneBuyBook ⟨1, Side.Buy, 101, 4⟩ =
      cancelThenReplace oneBuyBook ⟨1, Side.Buy, 101, 4⟩
        OrderType.GoodTillCancel ∧
    queueAt (placeOrder oneBuyBook
      ⟨OrderType.GoodTillCancel, 2, Side.Buy, 100, 7, 7⟩).bids 100 =
      queueAt oneBuyBook.bids 100 ++
        [⟨OrderType.GoodTillCancel, 2, Side.Buy, 100, 7, 7⟩] := by
  refine ⟨(c6_modify_is_cancel_then_replace oneBuyBook ⟨9, Side.Buy, 101, 4⟩).1
      (by decide),
    (c6_modify_is_cancel_then_replace oneBuyBook ⟨1, Side.Buy, 101, 4⟩).2.1
      ⟨Side.Buy, 100, OrderType.GoodTillCancel⟩ (by decide),
    (c6_modify_is_cancel_then_replace oneBuyBook ⟨1, Side.Buy, 101, 4⟩).2.2.1
      oneBuyBook ⟨OrderType.GoodTillCancel, 2, Side.Buy, 100, 7, 7⟩ rfl
      (by decide)⟩

/-- C7: the snapshot aggregation is 32-bit, not 64-bit: the per-level
aggregate is the exact sum reduced modulo `2^32`, and on a level whose exact
sum is 6000000000 the snapshot reports 1705032704. -/
theorem c7_snapshot_aggregation_wraps :
    (∀ l : List Order,
      levelQuantity l = (l.map Order.remainingQuantity).sum % qmod) ∧
    (getOrderInfos bigBook).2 = [⟨100, 1705032704⟩] ∧
    ((ladderOrders bigBook.asks).map Order.remainingQuantity).sum = 6000000000 ∧
    (1705032704 : Quantity) ≠ 6000000000 := by
  exact ⟨levelQuantity_eq_sum_mod, by decide, by decide, by decide⟩

/-- C8 counterexample: a modify of an existing order to quantity zero raises
the construction error, yet the caller-visible book has changed — the
original order was cancelled before the throw. -/
theorem c8_counterexample :
    matchOrder oneBuyBook ⟨1, Side.Buy, 100, 0⟩ =
      (Except.error BookError.constructionInvalid, emptyBook) ∧
    oneBuyBook ≠ emptyBook := by
  exact ⟨rfl, by decide⟩

/-- C8 (amended): `modify` of an unknown id returns empty with no state
change; `modify` of a present id with non-zero quantity never raises and
returns the cancel-then-add result; `modify` of a present id to quantity
zero raises ConstructionInvalid after the cancel has taken effect — the
book the caller then observes is exactly the cancelled book. -/
theorem c8_mutation_visibility (b : Book) (m : OrderModify) :
    (lookupIndex b.orders m.orderId = none → matchOrder b m = (Except.ok [], b)) ∧
    (∀ e, lookupIndex b.orders m.orderId = some e → m.quantity ≠ 0 →
      m.orderId ≠ 0 →
      matchOrder b m = (Except.ok (addOrder (cancelOrderInternal b m.orderId)
        (some ⟨e.orderType, m.orderId, m.side, m.price, m.quantity,
          m.quantity⟩)).1,
        (addOrder (cancelOrderInternal b m.orderId)
          (some ⟨e.orderType, m.orderId, m.side, m.price, m.quantity,
            m.quantity⟩)).2)) ∧
    (∀ e, lookupIndex b.orders m.orderId = some e → m.quantity = 0 →
      matchOrder b m = (Except.error BookError.constructionInvalid,
        cancelOrderInternal b m.orderId)) := by
  refine ⟨?_, ?_, ?_⟩
  · intro h
    simp [matchOrder, h]
  · intro e h hq hid
    have hto : m.toOrder e.orderType =
        some ⟨e.orderType, m.orderId, m.side, m.price, m.quantity, m.quantity⟩ := by
      simp [OrderModify.toOrder, mkOrder, hq, hid]
    simp [matchOrder, h, hto]
  · intro e h hq
    have hto : m.toOrder e.orderType = none := by
      simp [OrderModify.toOrder, mkOrder, hq]
    simp [matchOrder, h, hto]

/-- C8 witness: the three modes at concrete inputs. -/
theorem c8_witness :
    matchOrder oneBuyBook ⟨9, Side.Buy, 100, 5⟩ = (Except.ok [], oneBuyBook) ∧
    matchOrder oneBuyBook ⟨1, Side.Buy, 101, 4⟩ =
      (Except.ok (addOrder (cancelOrderInternal oneBuyBook 1)
        (some ⟨OrderType.GoodTillCancel, 1, Side.Buy, 101, 4, 4⟩)).1,
       (addOrder (cancelOrderInternal oneBuyBook 1)
        (some ⟨OrderType.GoodTillCancel, 1, Side.Buy, 101, 4, 4⟩)).2) ∧
    matchOrder oneBuyBook ⟨1, Side.Buy, 101, 0⟩ =
      (Except.error BookError.constructionInvalid,
        cancelOrderInternal oneBuyBook 1) := by
  refine ⟨(c8_mutation_visibility oneBuyBook ⟨9, Side.Buy, 100, 5⟩).1 (by decide),
    (c8_mutation_visibility oneBuyBook ⟨1, Side.Buy, 101, 4⟩).2.1
      ⟨Side.Buy, 100, OrderType.GoodTillCancel⟩ (by decide) (by decide)
      (by decide),
    (c8_mutation_visibility oneBuyBook ⟨1, Side.Buy, 101, 0⟩).2.2
      ⟨Side.Buy, 100, OrderType.GoodTillCancel⟩ (by decide) rfl⟩

/-- C9: the matcher terminates in a bounded number of steps — every inner
iteration on two non-empty queues strictly shrinks them, the outer loop run
with fuel `levels + 1` already reaches the non-crossed exit state, and any
additional fuel leaves the result unchanged. -/
theorem c9_matching_terminates (b : Book)
    (hpos : ∀ o ∈ allOrders b, 0 < o.remainingQuantity) :
    (∀ bq aq : List Order, bq ≠ [] → aq ≠ [] →
      (matchLevel (bq.length + aq.length) bq aq).2.1.length +
        (matchLevel (bq.length + aq.length) bq aq).2.2.1.length <
        bq.length + aq.length) ∧
    headsLT (matchLoop (b.bids.length + b.asks.length + 1) b).2 ∧
    (∀ extra : Nat, matchLoop (b.bids.length + b.asks.length + 1 + extra) b =
      matchLoop (b.bids.length + b.asks.length + 1) b) := by
  refine ⟨?_, matchLoop_exit _ _ (Nat.lt_succ_self _), ?_⟩
  · intro bq aq hb ha
    refine matchLevel_consumes _ bq aq hb ha ?_
    rcases bq with _ | ⟨o, rest⟩
    · exact absurd rfl hb
    · simp only [List.length_cons]
      omega
  · intro extra
    exact matchLoop_fuel_ext _ _ b (by omega) (Nat.lt_succ_self _)

/-- C9 witness: instantiated at a concrete book. -/
theorem c9_witness :
    headsLT (matchLoop (oneBuyBook.bids.length + oneBuyBook.asks.length + 1)
      oneBuyBook).2 ∧
    matchLoop (oneBuyBook.bids.length + oneBuyBook.asks.length + 1 + 5)
        oneBuyBook =
      matchLoop (oneBuyBook.bids.length + oneBuyBook.asks.length + 1)
        oneBuyBook := by
  refine ⟨(c9_matching_terminates oneBuyBook (by decide)).2.1,
    (c9_matching_terminates oneBuyBook (by decide)).2.2 5⟩

/-- C10: a modify of a present order whose preserved type is
ImmediateOrCancel or FillOrKill, whose replacement fails re-admission,
returns an empty trade list while the cancel has taken effect: the size has
decreased by one and the id is gone. -/
theorem c10_modify_cancel_persists {b : Book} {m : OrderModify} {e : OrderEntry}
    (hl : lookupIndex b.orders m.orderId = some e)
    (hnd : (b.orders.map Prod.fst).Nodup)
    (hqty : m.quantity ≠ 0) (hid : m.orderId ≠ 0)
    (hfail : (e.orderType = OrderType.ImmediateOrCancel ∧
        canMatch (cancelOrderInternal b m.orderId) m.side m.price = false) ∨
      (e.orderType = OrderType.FillOrKill ∧
        canFillCompletely (cancelOrderInternal b m.orderId) m.side m.price
          m.quantity = false)) :
    matchOrder b m = (Except.ok [], cancelOrderInternal b m.orderId) ∧
    bookSize (cancelOrderInternal b m.orderId) + 1 = bookSize b ∧
    lookupIndex (cancelOrderInternal b m.orderId).orders m.orderId = none := by
  have hb1orders : (cancelOrderInternal b m.orderId).orders =
      eraseIndex b.orders m.orderId := by
    rcases hs : e.side <;> simp [cancelOrderInternal, hl, hs]
  have hb1lookup : lookupIndex (cancelOrderInternal b m.orderId).orders
      m.orderId = none := by
    rw [hb1orders]
    exact lookupIndex_eraseIndex_self _ _
  have hto : m.toOrder e.orderType =
      some ⟨e.orderType, m.orderId, m.side, m.price, m.quantity, m.quantity⟩ := by
    simp [OrderModify.toOrder, mkOrder, hqty, hid]
  have hadd : addOrder (cancelOrderInternal b m.orderId)
      (some ⟨e.orderType, m.orderId, m.side, m.price, m.quantity, m.quantity⟩) =
      ([], cancelOrderInternal b m.orderId) := by
    have hdup : ¬(lookupIndex (cancelOrderInternal b m.orderId).orders
        m.orderId).isSome = true := by
      rw [hb1lookup]
      simp
    rcases hfail with ⟨hty, hcm⟩ | ⟨hty, hcf⟩
    · simp [addOrder, hqty, hid, hdup, hty, hcm]
    · simp [addOrder, hqty, hid, hdup, hty, hcf]
  refine ⟨?_, ?_, hb1lookup⟩
  · simp [matchOrder, hl, hto, hadd]
  · have hmem : m.orderId ∈ b.orders.map Prod.fst :=
      List.mem_map.mpr ⟨(m.orderId, e), lookupIndex_mem hl, rfl⟩
    simp only [bookSize, hb1orders]
    exact length_eraseIndex hnd hmem

/-- C10 witness: a book holding one resting ImmediateOrCancel order whose
modify to a non-crossing price is rejected on re-admission. -/
theorem c10_witness :
    matchOrder ⟨[(100, [⟨OrderType.ImmediateOrCancel, 7, Side.Buy, 100, 5, 5⟩])],
        [], [(7, ⟨Side.Buy, 100, OrderType.ImmediateOrCancel⟩)]⟩
      ⟨7, Side.Buy, 100, 5⟩ =
      (Except.ok [], cancelOrderInternal
        ⟨[(100, [⟨OrderType.ImmediateOrCancel, 7, Side.Buy, 100, 5, 5⟩])],
          [], [(7, ⟨Side.Buy, 100, OrderType.ImmediateOrCancel⟩)]⟩ 7) ∧
    bookSize (cancelOrderInternal
        ⟨[(100, [⟨OrderType.ImmediateOrCancel, 7, Side.Buy, 100, 5, 5⟩])],
          [], [(7, ⟨Side.Buy, 100, OrderType.ImmediateOrCancel⟩)]⟩ 7) + 1 =
      bookSize ⟨[(100, [⟨OrderType.ImmediateOrCancel, 7, Side.Buy, 100, 5, 5⟩])],
        [], [(7, ⟨Side.Buy, 100, OrderType.ImmediateOrCancel⟩)]⟩ ∧
    lookupIndex (cancelOrderInternal
        ⟨[(100, [⟨OrderType.ImmediateOrCancel, 7, Side.Buy, 100, 5, 5⟩])],
          [], [(7, ⟨Side.Buy, 100, OrderType.ImmediateOrCancel⟩)]⟩ 7).orders 7 =
      none :=
  @c10_modify_cancel_persists
    ⟨[(100, [⟨OrderType.ImmediateOrCancel, 7, Side.Buy, 100, 5, 5⟩])],
      [], [(7, ⟨Side.Buy, 100, OrderType.ImmediateOrCancel⟩)]⟩
    ⟨7, Side.Buy, 100, 5⟩ ⟨Side.Buy, 100, OrderType.ImmediateOrCancel⟩
    (by decide) (by decide) (by decide) (by decide)
    (Or.inl ⟨rfl, by decide⟩)

end OB
